import Mathlib

/-!
Shallow embedding of the voice-overs-ai pipeline (src/text_processor.py,
src/story_narrator.py, src/audio_generator.py, src/config.py, src/utils.py,
src/main.py) and proofs about the claims of its specification.

Strings are modelled as `List Char`.  Python's `\s` character class and
`str.strip()` whitespace set are modelled by `pySpace`.
-/

namespace VoiceOvers

/-- Whitespace for Python's `\s` (str mode) and `str.strip()`:
ASCII whitespace, the C1 separators 0x1c-0x1f, and the Unicode space
characters recognised by `str.isspace()`. -/
def pySpace (c : Char) : Bool :=
  c = ' ' || c = '\t' || c = '\n' || c = '\r' ||
  c.toNat = 11 || c.toNat = 12 ||
  (28 ≤ c.toNat && c.toNat ≤ 31) ||
  c.toNat = 0x85 || c.toNat = 0xa0 || c.toNat = 0x1680 ||
  (0x2000 ≤ c.toNat && c.toNat ≤ 0x200a) ||
  c.toNat = 0x2028 || c.toNat = 0x2029 ||
  c.toNat = 0x202f || c.toNat = 0x205f || c.toNat = 0x3000

/-- The sentence-terminating punctuation class `[.!?]` of text_processor.py. -/
def isPunct (c : Char) : Bool :=
  c = '.' || c = '!' || c = '?'

/-- Core of the run-capping regexes of `clean_text`
(`re.sub(r"\n{3,}", "\n\n", ·)` and `re.sub(r" {2,}", " ", ·)`): keep at most
`k` consecutive copies of `c`; `cnt` counts the copies of `c` kept so far in
the current run. A maximal run of `n` copies of `c` becomes `min n k` copies,
which is exactly what the greedy substitution does. -/
def capRunsGo (c : Char) (k : Nat) : Nat → List Char → List Char
  | _, [] => []
  | cnt, x :: xs =>
    if x = c then
      if cnt < k then x :: capRunsGo c k (cnt + 1) xs
      else capRunsGo c k (cnt + 1) xs
    else x :: capRunsGo c k 0 xs

/-- Cap each maximal run of `c` at length `k`. -/
def capRuns (c : Char) (k : Nat) (l : List Char) : List Char :=
  capRunsGo c k 0 l

/-- Fuel-indexed core of Python `str.replace`: replace each non-overlapping
occurrence of `pat` (leftmost first) by `repl`.  The fuel is the input
length, which always suffices. -/
def replaceAllGo (pat repl : List Char) : Nat → List Char → List Char
  | _, [] => []
  | 0, l => l
  | fuel + 1, x :: xs =>
    if pat.isPrefixOf (x :: xs) then
      repl ++ replaceAllGo pat repl fuel (List.drop (pat.length - 1) xs)
    else
      x :: replaceAllGo pat repl fuel xs

/-- Python `str.replace pat repl` for non-empty `pat` (both uses in
`clean_text` have non-empty patterns). -/
def replaceAll (pat repl l : List Char) : List Char :=
  replaceAllGo pat repl l.length l

/-- Does this suffix consist of zero or more whitespace characters followed
by a `[.!?]` character?  A whitespace character is deleted by
`re.sub(r"\s+([.!?])", r"\1", ·)` exactly when the suffix after it has this
shape (the greedy `\s+` always matches whole maximal whitespace runs). -/
def leadsToPunct : List Char → Bool
  | [] => false
  | x :: xs => if isPunct x then true else if pySpace x then leadsToPunct xs else false

/-- The substitution `re.sub(r"\s+([.!?])", r"\1", ·)`: remove every
whitespace run that immediately precedes a `[.!?]` character. -/
def rmWsPunct : List Char → List Char
  | [] => []
  | x :: xs =>
    if pySpace x && leadsToPunct xs then rmWsPunct xs else x :: rmWsPunct xs

/-- Remove trailing whitespace (the right half of Python `str.strip()`). -/
def stripEnd : List Char → List Char
  | [] => []
  | x :: xs =>
    match stripEnd xs with
    | [] => if pySpace x then [] else [x]
    | y :: ys => x :: y :: ys

/-- Python `str.strip()`: drop leading and trailing whitespace. -/
def pyStrip (l : List Char) : List Char :=
  stripEnd (l.dropWhile pySpace)

/-- The 15-character pattern actually passed to `str.replace` on line 25 of
src/text_processor.py.  The line reads
`text = text.replace(""", "'").replace(""", "'")`
in which Python's tokenizer sees one triple-quoted string literal, so the
whole line is a single call replacing this pattern with an apostrophe
(a mojibake corruption of the intended curly-quote normalization). -/
def mojibakePat : List Char :=
  [',', ' ', '"', '\'', '"', ')', '.', 'r', 'e', 'p', 'l', 'a', 'c', 'e', '(']

/-- `TextProcessor.clean_text` (src/text_processor.py lines 16-30), step by
step: cap newline runs at 2, cap space runs at 1, the two no-op
`replace('"', '"')` calls of line 24, the mojibake replacement of line 25,
remove whitespace before `[.!?]`, and strip. -/
def clean_text (text : List Char) : List Char :=
  let t1 := capRuns '\n' 2 text
  let t2 := capRuns ' ' 1 t1
  let t3 := replaceAll ['"'] ['"'] (replaceAll ['"'] ['"'] t2)
  let t4 := replaceAll mojibakePat ['\''] t3
  let t5 := rmWsPunct t4
  pyStrip t5

example : capRuns '\n' 2 ['a', '\n', '\n', '\n', '\n', 'b', '\n', 'c'] =
    ['a', '\n', '\n', 'b', '\n', 'c'] := by decide

example : capRuns ' ' 1 ['a', ' ', ' ', ' ', 'b', ' ', 'c'] =
    ['a', ' ', 'b', ' ', 'c'] := by decide

example : rmWsPunct ['a', ' ', '\n', '.', 'b', ' ', 'c', ' ', '!'] =
    ['a', '.', 'b', ' ', 'c', '!'] := by decide

example : pyStrip [' ', '\n', 'a', ' ', 'b', '\t', ' '] = ['a', ' ', 'b'] := by decide

example : clean_text ['\n', 'h', 'i', ' ', ' ', '!', '\n'] = ['h', 'i', '!'] := by decide

/-- An input exposing the mojibake bug of `clean_text`: the text
`a, "'") .replace(b`.  One pass removes the space before the dot (the
`\s+([.!?])` substitution), creating an occurrence of `mojibakePat` after
the replace step has already run; a second pass then rewrites that
occurrence to an apostrophe. -/
def c3FailingInput : List Char :=
  ['a', ',', ' ', '"', '\'', '"', ')', ' ', '.', 'r', 'e', 'p', 'l', 'a', 'c', 'e', '(', 'b']

/-- C3: the claim that `clean_text` is idempotent is right about the intent
(the in-code comment says the replace calls handle quotation marks, and the
spec describes curly-quote normalization), but the code is mojibake-corrupted:
line 24 is a no-op replace and line 25 replaces the 15-character literal
`mojibakePat` with an apostrophe.  Consequently `clean_text` is not
idempotent: on `c3FailingInput` a first pass yields `a` + `mojibakePat` + `b`
while a second pass collapses it to the 3-character string with an apostrophe
between `a` and `b`. -/
theorem clean_text_not_idempotent :
    clean_text c3FailingInput = 'a' :: mojibakePat ++ ['b'] ∧
    clean_text (clean_text c3FailingInput) = ['a', '\'', 'b'] ∧
    clean_text (clean_text c3FailingInput) ≠ clean_text c3FailingInput := by
  refine ⟨by decide, by decide, by decide⟩

/-- Head-of-list whitespace test used by the sentence splitter. -/
def headSpace : List Char → Bool
  | [] => false
  | y :: _ => pySpace y

/-- Prepend a character to the first piece of a split result. -/
def consHead (x : Char) : List (List Char) → List (List Char)
  | [] => [[x]]
  | p :: ps => (x :: p) :: ps

/-- Python `text.split("\n\n")`: split on each leftmost non-overlapping
occurrence of two consecutive newlines. -/
def splitOn2NL : List Char → List (List Char)
  | [] => [[]]
  | [x] => [[x]]
  | x :: y :: rest =>
    if x = '\n' ∧ y = '\n' then [] :: splitOn2NL rest
    else consHead x (splitOn2NL (y :: rest))

/-- Fuel-indexed core of `re.split(r"(?<=[.!?])\s+", text)`: a delimiter is a
maximal whitespace run whose preceding character is in `[.!?]`; the delimiter
is consumed and the text is cut there.  The fuel is the input length, which
always suffices. -/
def splitSentGo : Nat → List Char → List (List Char)
  | _, [] => [[]]
  | 0, l => [l]
  | fuel + 1, x :: xs =>
    if isPunct x && headSpace xs then
      [x] :: splitSentGo fuel (xs.dropWhile pySpace)
    else
      consHead x (splitSentGo fuel xs)

/-- The raw `re.split(r"(?<=[.!?])\s+", ·)` of
`TextProcessor.split_into_sentences`. -/
def splitSentRaw (l : List Char) : List (List Char) :=
  splitSentGo l.length l

/-- `TextProcessor.split_into_sentences` (src/text_processor.py lines 32-37):
regex split, then strip each piece and drop the empty ones. -/
def split_into_sentences (l : List Char) : List (List Char) :=
  ((splitSentRaw l).map pyStrip).filter (fun s => s ≠ [])

/-- The cleaned paragraphs of `intelligent_text_splitting`
(src/text_processor.py line 57): split the cleaned text on blank lines,
strip each paragraph and drop the empty ones. -/
def paragraphsOf (text : List Char) : List (List Char) :=
  ((splitOn2NL (clean_text text)).map pyStrip).filter (fun p => p ≠ [])

/-- The accumulator state of `intelligent_text_splitting`: the completed
segments and the accumulating current segment. -/
structure SState where
  segs : List (List Char)
  cur : List Char
deriving DecidableEq

/-- One accumulate-or-flush step of `intelligent_text_splitting`
(src/text_processor.py lines 67-86): `sep` is the separator appended after
the unit (`" "` for sentences of a long paragraph, `"\n\n"` for whole
paragraphs).  The accumulator is flushed exactly when adding the unit would
pass `target` and the accumulator is non-empty; the new accumulator then
restarts with the unit. -/
def addUnit (target : Nat) (sep : List Char) (st : SState) (u : List Char) : SState :=
  if st.cur.length + u.length > target ∧ st.cur ≠ [] then
    ⟨st.segs ++ [pyStrip st.cur], u ++ sep⟩
  else
    ⟨st.segs, st.cur ++ (u ++ sep)⟩

/-- Processing of one paragraph by `intelligent_text_splitting`
(src/text_processor.py lines 62-86): a paragraph longer than 1.5 times the
target (`2 * len > 3 * target` in integers) is fed to the accumulator
sentence by sentence with separator `" "`; a shorter paragraph is one atomic
unit with separator `"\n\n"`. -/
def processParagraph (target : Nat) (st : SState) (p : List Char) : SState :=
  if 2 * p.length > 3 * target then
    (split_into_sentences p).foldl (addUnit target [' ']) st
  else
    addUnit target ['\n', '\n'] st p

/-- `TextProcessor.intelligent_text_splitting`
(src/text_processor.py lines 39-92). -/
def intelligent_text_splitting (text : List Char) (target : Nat) : List (List Char) :=
  let st := (paragraphsOf text).foldl (processParagraph target) ⟨[], []⟩
  if pyStrip st.cur ≠ [] then st.segs ++ [pyStrip st.cur] else st.segs

/-- The units contributed by one paragraph: its sentences when it is long,
otherwise the paragraph itself. -/
def paraUnits (target : Nat) (p : List Char) : List (List Char) :=
  if 2 * p.length > 3 * target then split_into_sentences p else [p]

/-- The units the segmenter accumulates, in input order: the sentences of
each long paragraph, and each short paragraph whole. -/
def unitsOf (text : List Char) (target : Nat) : List (List Char) :=
  ((paragraphsOf text).map (paraUnits target)).flatten

/-- The non-whitespace content of a string, used to state that the segmenter
is lossless up to inserted whitespace separators. -/
def filterNW (l : List Char) : List Char :=
  l.filter (fun c => !pySpace c)

/-- A string already in stripped form: `str.strip()` would not change it. -/
def Stripped (l : List Char) : Prop :=
  l.dropWhile pySpace = l ∧ stripEnd l = l

theorem filterNW_append (l1 l2 : List Char) :
    filterNW (l1 ++ l2) = filterNW l1 ++ filterNW l2 :=
  List.filter_append ..

theorem filterNW_cons (x : Char) (l : List Char) :
    filterNW (x :: l) = if pySpace x then filterNW l else x :: filterNW l := by
  by_cases hx : pySpace x <;> simp [filterNW, List.filter_cons, hx]

theorem filterNW_ws_nil {s : List Char} (h : ∀ c ∈ s, pySpace c = true) :
    filterNW s = [] := by
  induction s with
  | nil => rfl
  | cons x xs ih =>
    have hx := h x (List.mem_cons_self x xs)
    have hxs := ih fun c hc => h c (List.mem_cons_of_mem _ hc)
    simpa [filterNW, List.filter_cons, hx] using hxs

theorem filterNW_dropWhile (l : List Char) :
    filterNW (l.dropWhile pySpace) = filterNW l := by
  induction l with
  | nil => rfl
  | cons x xs ih =>
    by_cases hx : pySpace x
    · rw [List.dropWhile_cons, if_pos hx, ih, filterNW_cons, if_pos hx]
    · rw [List.dropWhile_cons, if_neg hx]

theorem stripEnd_cons (x : Char) (xs : List Char) :
    stripEnd (x :: xs) =
      match stripEnd xs with
      | [] => if pySpace x = true then [] else [x]
      | y :: ys => x :: y :: ys := rfl

theorem length_dropWhile_le (p : Char → Bool) (l : List Char) :
    (l.dropWhile p).length ≤ l.length := by
  induction l with
  | nil => exact Nat.le_refl _
  | cons x xs ih =>
    rw [List.dropWhile_cons]
    by_cases hx : p x
    · rw [if_pos hx]; exact Nat.le_trans ih (Nat.le_succ _)
    · rw [if_neg hx]

theorem filterNW_stripEnd (l : List Char) :
    filterNW (stripEnd l) = filterNW l := by
  induction l with
  | nil => rfl
  | cons x xs ih =>
    rw [stripEnd_cons]
    cases h : stripEnd xs with
    | nil =>
      have hxs : filterNW xs = [] := by rw [← ih, h]; rfl
      show filterNW (if pySpace x = true then [] else [x]) = filterNW (x :: xs)
      rw [filterNW_cons x xs, hxs]
      by_cases hx : pySpace x
      · rw [if_pos hx]
        rfl
      · rw [if_neg hx, filterNW_cons x [], if_neg hx]
        rfl
    | cons y ys =>
      have hys : filterNW (y :: ys) = filterNW xs := by rw [← h, ih]
      rw [filterNW_cons x (y :: ys), hys, filterNW_cons x xs]

theorem filterNW_pyStrip (l : List Char) : filterNW (pyStrip l) = filterNW l := by
  rw [pyStrip, filterNW_stripEnd, filterNW_dropWhile]

theorem filterNW_of_pyStrip_nil {l : List Char} (h : pyStrip l = []) :
    filterNW l = [] := by
  rw [← filterNW_pyStrip, h]; rfl

theorem Stripped_head {l : List Char} {x : Char} {xs : List Char}
    (h : Stripped l) (heq : l = x :: xs) : pySpace x = false := by
  cases hpx : pySpace x
  · rfl
  · exfalso
    have h1 := h.1
    rw [heq, List.dropWhile_cons, if_pos hpx] at h1
    have hlen := congrArg List.length h1
    have hle := length_dropWhile_le pySpace xs
    simp at hlen
    omega

theorem pyStrip_of_Stripped {l : List Char} (h : Stripped l) : pyStrip l = l := by
  rw [pyStrip, h.1, h.2]

theorem stripEnd_idem (l : List Char) : stripEnd (stripEnd l) = stripEnd l := by
  induction l with
  | nil => rfl
  | cons x xs ih =>
    rw [stripEnd_cons]
    cases h : stripEnd xs with
    | nil =>
      by_cases hx : pySpace x
      · simp [hx, stripEnd]
      · simp [hx, stripEnd]
    | cons y ys =>
      have hyy : stripEnd (y :: ys) = y :: ys := by rw [← h, ih, h]
      show stripEnd (x :: y :: ys) = x :: y :: ys
      rw [stripEnd_cons, hyy]

theorem stripEnd_head {x : Char} {xs : List Char}
    (hne : stripEnd (x :: xs) ≠ []) :
    ∃ ys, stripEnd (x :: xs) = x :: ys := by
  rw [stripEnd_cons] at hne ⊢
  cases h : stripEnd xs with
  | nil =>
    rw [h] at hne
    by_cases hx : pySpace x
    · simp [hx] at hne
    · exact ⟨[], by simp [hx]⟩
  | cons y ys =>
    exact ⟨y :: ys, rfl⟩

theorem head_dropWhile : ∀ {l : List Char} {x : Char} {xs : List Char},
    l.dropWhile pySpace = x :: xs → pySpace x = false := by
  intro l
  induction l with
  | nil => intro x xs h; exact absurd h (by simp)
  | cons c cs ih =>
    intro x xs h
    rw [List.dropWhile_cons] at h
    by_cases hc : pySpace c
    · rw [if_pos hc] at h; exact ih h
    · rw [if_neg hc] at h
      obtain ⟨h1, _⟩ := List.cons.inj h
      rw [← h1]
      cases hpc : pySpace c
      · rfl
      · exact absurd hpc hc

theorem Stripped_pyStrip (l : List Char) : Stripped (pyStrip l) := by
  have hse : stripEnd (pyStrip l) = pyStrip l := by
    rw [pyStrip, stripEnd_idem]
  cases h : pyStrip l with
  | nil => exact ⟨rfl, by rw [← h, hse]⟩
  | cons y ys =>
    have hy : pySpace y = false := by
      rw [pyStrip] at h
      cases hd : l.dropWhile pySpace with
      | nil => rw [hd] at h; exact absurd h.symm (by simp [stripEnd])
      | cons z zs =>
        rw [hd] at h
        obtain ⟨ws, hws⟩ := @stripEnd_head z zs (by rw [h]; simp)
        rw [h] at hws
        obtain ⟨h1, _⟩ := List.cons.inj hws.symm
        rw [← h1]
        exact head_dropWhile hd
    constructor
    · rw [List.dropWhile_cons, if_neg (by simp [hy])]
    · rw [← h, hse]

theorem stripEnd_ws_nil {s : List Char} (h : ∀ c ∈ s, pySpace c = true) :
    stripEnd s = [] := by
  induction s with
  | nil => rfl
  | cons x xs ih =>
    have hxs : stripEnd xs = [] := ih fun c hc => h c (List.mem_cons_of_mem _ hc)
    have hx := h x (List.mem_cons_self ..)
    simp [stripEnd, hxs, hx]

theorem stripEnd_append_ws {l s : List Char} (h : ∀ c ∈ s, pySpace c = true) :
    stripEnd (l ++ s) = stripEnd l := by
  induction l with
  | nil => simpa using stripEnd_ws_nil h
  | cons x xs ih => rw [List.cons_append, stripEnd_cons, stripEnd_cons, ih]

theorem stripEnd_append_of_ne {l1 l2 : List Char} (h : stripEnd l2 ≠ []) :
    stripEnd (l1 ++ l2) = l1 ++ stripEnd l2 := by
  induction l1 with
  | nil => rfl
  | cons x xs ih =>
    cases h2 : xs ++ stripEnd l2 with
    | nil =>
      exact absurd (List.append_eq_nil.mp h2).2 h
    | cons y ys =>
      rw [List.cons_append]
      simp only [stripEnd, ih, h2]
      rw [List.cons_append, h2]

theorem punct_not_space {c : Char} (h : isPunct c = true) : pySpace c = false := by
  simp only [isPunct, Bool.or_eq_true, decide_eq_true_eq] at h
  rcases h with (h | h) | h <;> subst h <;> decide

theorem flatten_consHead (x : Char) (ps : List (List Char)) :
    (consHead x ps).flatten = x :: ps.flatten := by
  cases ps <;> simp [consHead]

theorem filterNW_flatten_splitSentGo :
    ∀ fuel (l : List Char), l.length ≤ fuel →
      filterNW (splitSentGo fuel l).flatten = filterNW l := by
  intro fuel
  induction fuel with
  | zero =>
    intro l h
    cases l with
    | nil => rfl
    | cons x xs => exact absurd h (by simp)
  | succ fuel ih =>
    intro l h
    cases l with
    | nil => rfl
    | cons x xs =>
      show filterNW (if isPunct x && headSpace xs then
          [x] :: splitSentGo fuel (xs.dropWhile pySpace)
        else consHead x (splitSentGo fuel xs)).flatten = filterNW (x :: xs)
      by_cases hc : isPunct x && headSpace xs
      · rw [if_pos hc]
        have hx : pySpace x = false :=
          punct_not_space (Bool.and_elim_left hc)
        have hlen : (xs.dropWhile pySpace).length ≤ fuel :=
          Nat.le_trans (length_dropWhile_le pySpace xs) (Nat.le_of_succ_le_succ h)
        rw [List.flatten_cons, List.singleton_append, filterNW_cons, if_neg (by simp [hx]),
          ih _ hlen, filterNW_dropWhile, filterNW_cons, if_neg (by simp [hx])]
      · rw [if_neg hc, flatten_consHead, filterNW_cons,
          ih xs (Nat.le_of_succ_le_succ h), filterNW_cons]

theorem consHead_ne_nil (x : Char) (ps : List (List Char)) : consHead x ps ≠ [] := by
  cases ps <;> simp [consHead]

theorem splitOn2NL_ne_nil (l : List Char) : splitOn2NL l ≠ [] := by
  induction l using splitOn2NL.induct with
  | case1 => simp [splitOn2NL]
  | case2 x => simp [splitOn2NL]
  | case3 x y rest h ih =>
    rw [splitOn2NL, if_pos h]
    simp
  | case4 x y rest h ih =>
    rw [splitOn2NL, if_neg h]
    exact consHead_ne_nil x _

theorem filterNW_flatten_splitOn2NL (l : List Char) :
    filterNW (splitOn2NL l).flatten = filterNW l := by
  induction l using splitOn2NL.induct with
  | case1 => rfl
  | case2 x => simp [splitOn2NL]
  | case3 x y rest h ih =>
    obtain ⟨hx, hy⟩ := h
    subst hx; subst hy
    rw [splitOn2NL, if_pos ⟨rfl, rfl⟩, List.flatten_cons, List.nil_append, ih,
      filterNW_cons, filterNW_cons]
    simp [(by decide : pySpace '\n' = true)]
  | case4 x y rest h ih =>
    rw [splitOn2NL, if_neg h, flatten_consHead,
      filterNW_cons x ((splitOn2NL (y :: rest)).flatten), ih,
      filterNW_cons x (y :: rest)]

theorem flatten_filter_ne_nil (L : List (List Char)) :
    (L.filter (fun s => s ≠ [])).flatten = L.flatten := by
  induction L with
  | nil => rfl
  | cons s L ih =>
    rw [List.filter_cons]
    by_cases hs : s = []
    · subst hs
      rw [if_neg (by simp), ih]
      simp
    · rw [if_pos (by simp [hs]), List.flatten_cons, List.flatten_cons, ih]

theorem filterNW_flatten_map_pyStrip (L : List (List Char)) :
    filterNW (L.map pyStrip).flatten = filterNW L.flatten := by
  induction L with
  | nil => rfl
  | cons s L ih =>
    simp only [List.map_cons, List.flatten_cons, filterNW_append, ih, filterNW_pyStrip]

theorem filterNW_flatten_split_into_sentences (p : List Char) :
    filterNW (split_into_sentences p).flatten = filterNW p := by
  rw [split_into_sentences, flatten_filter_ne_nil, filterNW_flatten_map_pyStrip,
    splitSentRaw, filterNW_flatten_splitSentGo p.length p (Nat.le_refl _)]

theorem mem_strip_filter {L : List (List Char)} {u : List Char}
    (h : u ∈ (L.map pyStrip).filter (fun s => s ≠ [])) :
    Stripped u ∧ u ≠ [] := by
  rw [List.mem_filter] at h
  obtain ⟨hmem, hne⟩ := h
  rw [List.mem_map] at hmem
  obtain ⟨r, _, hr⟩ := hmem
  subst hr
  exact ⟨Stripped_pyStrip r, by simpa using hne⟩

theorem mem_split_into_sentences {p u : List Char}
    (h : u ∈ split_into_sentences p) : Stripped u ∧ u ≠ [] :=
  mem_strip_filter h

theorem mem_paragraphsOf {text p : List Char}
    (h : p ∈ paragraphsOf text) : Stripped p ∧ p ≠ [] :=
  mem_strip_filter h

/-- Invariant on the accumulating segment of `intelligent_text_splitting`:
it is empty or of the form `core ++ sep` with `sep` a whitespace separator,
where `core` (the stripped value a flush would emit) is a single unit of `U`
or fits in `target` characters. -/
def GoodCur (target : Nat) (U : List (List Char)) (cur : List Char) : Prop :=
  cur = [] ∨ ∃ core sep, cur = core ++ sep ∧ (∀ c ∈ sep, pySpace c = true) ∧
    core ≠ [] ∧ Stripped core ∧ (core ∈ U ∨ core.length ≤ target)

/-- Invariant on the completed segments: each is non-empty, stripped, and a
single unit of `U` or at most `target` characters long. -/
def SegsOk (target : Nat) (U : List (List Char)) (segs : List (List Char)) : Prop :=
  ∀ s ∈ segs, Stripped s ∧ s ≠ [] ∧ (s ∈ U ∨ s.length ≤ target)

/-- Combined invariant on the segmenter state. -/
def SInv (target : Nat) (U : List (List Char)) (st : SState) : Prop :=
  SegsOk target U st.segs ∧ GoodCur target U st.cur

/-- The non-whitespace content held by a segmenter state. -/
def segContent (st : SState) : List Char :=
  filterNW (st.segs.flatten ++ st.cur)

theorem pyStrip_core_sep {core sep : List Char}
    (hsep : ∀ c ∈ sep, pySpace c = true) (hcne : core ≠ []) (hcs : Stripped core) :
    pyStrip (core ++ sep) = core := by
  cases core with
  | nil => exact absurd rfl hcne
  | cons x xs =>
    have hx : pySpace x = false := Stripped_head hcs rfl
    rw [pyStrip, List.cons_append, List.dropWhile_cons, if_neg (by simp [hx]),
      ← List.cons_append, stripEnd_append_ws hsep, hcs.2]

theorem Stripped_glue {core sep u : List Char}
    (hcs : Stripped core) (hcne : core ≠ []) (hu : Stripped u) (hune : u ≠ []) :
    Stripped (core ++ sep ++ u) := by
  cases core with
  | nil => exact absurd rfl hcne
  | cons x xs =>
    have hx : pySpace x = false := Stripped_head hcs rfl
    constructor
    · rw [List.cons_append, List.cons_append, List.dropWhile_cons,
        if_neg (by simp [hx])]
    · rw [stripEnd_append_of_ne (by rw [hu.2]; exact hune), hu.2]

theorem addUnit_inv {target : Nat} {U : List (List Char)} {sep : List Char}
    {st : SState} {u : List Char}
    (hsep : ∀ c ∈ sep, pySpace c = true) (hu : Stripped u) (hune : u ≠ [])
    (huU : u ∈ U) (hinv : SInv target U st) :
    SInv target U (addUnit target sep st u) := by
  rw [addUnit]
  split_ifs with h
  · obtain ⟨hgt, hne⟩ := h
    rcases hinv.2 with hc | ⟨core, sep0, hcur, hsep0, hcne, hcs, hcU⟩
    · exact absurd hc hne
    refine ⟨?_, Or.inr ⟨u, sep, rfl, hsep, hune, hu, Or.inl huU⟩⟩
    intro s hs
    rcases List.mem_append.mp hs with hs | hs
    · exact hinv.1 s hs
    · have hseq : s = pyStrip st.cur := by simpa using hs
      rw [hseq, hcur, pyStrip_core_sep hsep0 hcne hcs]
      exact ⟨hcs, hcne, hcU⟩
  · refine ⟨hinv.1, ?_⟩
    rcases hinv.2 with hc | ⟨core, sep0, hcur, hsep0, hcne, hcs, hcU⟩
    · right
      exact ⟨u, sep, by rw [hc, List.nil_append], hsep, hune, hu, Or.inl huU⟩
    · right
      refine ⟨core ++ sep0 ++ u, sep, ?_, hsep, ?_, ?_, Or.inr ?_⟩
      · rw [hcur]; simp [List.append_assoc]
      · simp [hcne]
      · exact Stripped_glue hcs hcne hu hune
      · have hne : st.cur ≠ [] := by rw [hcur]; simp [hcne]
        have hle : ¬st.cur.length + u.length > target := fun hgt => h ⟨hgt, hne⟩
        have : (core ++ sep0 ++ u).length = st.cur.length + u.length := by
          rw [hcur]; simp [Nat.add_assoc]
        omega

theorem addUnit_content {target : Nat} {sep : List Char} {st : SState} {u : List Char}
    (hsep : ∀ c ∈ sep, pySpace c = true) :
    segContent (addUnit target sep st u) = segContent st ++ filterNW u := by
  rw [addUnit]
  split_ifs with h
  · show filterNW ((st.segs ++ [pyStrip st.cur]).flatten ++ (u ++ sep)) = _
    rw [List.flatten_append, List.flatten_cons, List.flatten_nil, List.append_nil]
    rw [segContent, filterNW_append, filterNW_append, filterNW_append,
      filterNW_append, filterNW_pyStrip, filterNW_ws_nil hsep, List.append_nil,
      List.append_assoc]
  · show filterNW (st.segs.flatten ++ (st.cur ++ (u ++ sep))) = _
    rw [segContent, filterNW_append, filterNW_append, filterNW_append,
      filterNW_append, filterNW_ws_nil hsep, List.append_nil, List.append_assoc]

theorem foldl_addUnit_inv {target : Nat} {U : List (List Char)} {sep : List Char}
    {us : List (List Char)}
    (hsep : ∀ c ∈ sep, pySpace c = true)
    (hus : ∀ u ∈ us, Stripped u ∧ u ≠ [] ∧ u ∈ U) :
    ∀ st, SInv target U st → SInv target U (us.foldl (addUnit target sep) st) := by
  induction us with
  | nil => intro st hinv; exact hinv
  | cons u us ih =>
    intro st hinv
    rw [List.foldl_cons]
    have hu := hus u (List.mem_cons_self u us)
    exact ih (fun v hv => hus v (List.mem_cons_of_mem _ hv)) _
      (addUnit_inv hsep hu.1 hu.2.1 hu.2.2 hinv)

theorem foldl_addUnit_content {target : Nat} {sep : List Char}
    {us : List (List Char)} (hsep : ∀ c ∈ sep, pySpace c = true) :
    ∀ st, segContent (us.foldl (addUnit target sep) st) =
      segContent st ++ filterNW us.flatten := by
  induction us with
  | nil => intro st; simp [filterNW]
  | cons u us ih =>
    intro st
    rw [List.foldl_cons, ih, addUnit_content hsep, List.flatten_cons,
      filterNW_append, List.append_assoc]

theorem processParagraph_inv {target : Nat} {U : List (List Char)} {p : List Char}
    {st : SState}
    (hp : Stripped p ∧ p ≠ []) (hU : ∀ u ∈ paraUnits target p, u ∈ U)
    (hinv : SInv target U st) :
    SInv target U (processParagraph target st p) := by
  rw [processParagraph]
  rw [paraUnits] at hU
  split_ifs with h
  · rw [if_pos h] at hU
    exact foldl_addUnit_inv (by decide)
      (fun u hu => ⟨(mem_split_into_sentences hu).1,
        (mem_split_into_sentences hu).2, hU u hu⟩) st hinv
  · rw [if_neg h] at hU
    exact addUnit_inv (by decide) hp.1 hp.2
      (hU p (List.mem_singleton.mpr rfl)) hinv

theorem processParagraph_content {target : Nat} {p : List Char} {st : SState} :
    segContent (processParagraph target st p) = segContent st ++ filterNW p := by
  rw [processParagraph]
  split_ifs with h
  · rw [foldl_addUnit_content (by decide), filterNW_flatten_split_into_sentences]
  · rw [addUnit_content (by decide)]

theorem paras_foldl_inv {target : Nat} {U : List (List Char)} {ps : List (List Char)}
    (hps : ∀ p ∈ ps, Stripped p ∧ p ≠ [] ∧ ∀ u ∈ paraUnits target p, u ∈ U) :
    ∀ st, SInv target U st → SInv target U (ps.foldl (processParagraph target) st) := by
  induction ps with
  | nil => intro st hinv; exact hinv
  | cons p ps ih =>
    intro st hinv
    rw [List.foldl_cons]
    have hp := hps p (List.mem_cons_self p ps)
    exact ih (fun q hq => hps q (List.mem_cons_of_mem _ hq)) _
      (processParagraph_inv ⟨hp.1, hp.2.1⟩ hp.2.2 hinv)

theorem paras_foldl_content {target : Nat} {ps : List (List Char)} :
    ∀ st, segContent (ps.foldl (processParagraph target) st) =
      segContent st ++ filterNW ps.flatten := by
  induction ps with
  | nil => intro st; simp [filterNW]
  | cons p ps ih =>
    intro st
    rw [List.foldl_cons, ih, processParagraph_content, List.flatten_cons,
      filterNW_append, List.append_assoc]

theorem mem_unitsOf {text p u : List Char} {target : Nat}
    (hp : p ∈ paragraphsOf text) (hu : u ∈ paraUnits target p) :
    u ∈ unitsOf text target := by
  rw [unitsOf, List.mem_flatten]
  exact ⟨paraUnits target p, List.mem_map.mpr ⟨p, hp, rfl⟩, hu⟩

theorem its_state_inv (text : List Char) (target : Nat) :
    SInv target (unitsOf text target)
      ((paragraphsOf text).foldl (processParagraph target) ⟨[], []⟩) := by
  refine paras_foldl_inv ?_ _ ⟨?_, Or.inl rfl⟩
  · intro p hp
    exact ⟨(mem_paragraphsOf hp).1, (mem_paragraphsOf hp).2,
      fun u hu => mem_unitsOf hp hu⟩
  · intro s hs
    exact absurd hs (List.not_mem_nil s)

theorem mem_intelligent_text_splitting {text : List Char} {target : Nat}
    {seg : List Char} (h : seg ∈ intelligent_text_splitting text target) :
    Stripped seg ∧ seg ≠ [] ∧ (seg ∈ unitsOf text target ∨ seg.length ≤ target) := by
  rw [intelligent_text_splitting] at h
  have hinv := its_state_inv text target
  set st := (paragraphsOf text).foldl (processParagraph target) (⟨[], []⟩ : SState)
    with hst
  split_ifs at h with hcur
  · rcases List.mem_append.mp h with hs | hs
    · exact hinv.1 seg hs
    · have hseq : seg = pyStrip st.cur := by simpa using hs
      rcases hinv.2 with hc | ⟨core, sep0, hcurdef, hsep0, hcne, hcs, hcU⟩
      · rw [hc] at hcur; exact absurd rfl hcur
      · rw [hseq, hcurdef, pyStrip_core_sep hsep0 hcne hcs]
        exact ⟨hcs, hcne, hcU⟩
  · exact hinv.1 seg h

theorem content_intelligent_text_splitting (text : List Char) (target : Nat) :
    filterNW (intelligent_text_splitting text target).flatten =
      filterNW (clean_text text) := by
  rw [intelligent_text_splitting]
  have hcontent : segContent ((paragraphsOf text).foldl (processParagraph target)
      ⟨[], []⟩) = filterNW (paragraphsOf text).flatten := by
    rw [paras_foldl_content]
    simp [segContent, filterNW]
  have hparas : filterNW (paragraphsOf text).flatten = filterNW (clean_text text) := by
    rw [paragraphsOf, flatten_filter_ne_nil, filterNW_flatten_map_pyStrip,
      filterNW_flatten_splitOn2NL]
  set st := (paragraphsOf text).foldl (processParagraph target) (⟨[], []⟩ : SState)
    with hst
  split_ifs with hcur
  · rw [List.flatten_append, List.flatten_cons, List.flatten_nil, List.append_nil,
      filterNW_append, filterNW_pyStrip, ← filterNW_append, ← segContent,
      hcontent, hparas]
  · have hnil : pyStrip st.cur = [] := by
      by_contra hne
      exact hcur hne
    have : filterNW st.cur = [] := filterNW_of_pyStrip_nil hnil
    calc filterNW st.segs.flatten
        = filterNW st.segs.flatten ++ filterNW st.cur := by rw [this, List.append_nil]
      _ = segContent st := by rw [segContent, filterNW_append]
      _ = filterNW (clean_text text) := by rw [hst, hcontent, hparas]

theorem append_singleton_ne {l : List (List Char)} {a : List Char} :
    l ++ [a] ≠ l := by
  intro heq
  have := congrArg List.length heq
  simp at this

/-- C1: the segmenter's accumulate-or-flush step flushes exactly when the
accumulator is non-empty and adding the next unit would pass `target_length`
(`len(current_segment) + len(unit) > target_length` in the code); when it
flushes, the flushed segment is the stripped accumulator and the new
accumulator restarts with that unit; a unit is always appended to an empty
accumulator regardless of its own length.  Consequently every segment
returned by `intelligent_text_splitting` is at most `target_length`
characters long or is a single unit (a sentence of a long paragraph, or a
whole short paragraph). -/
theorem intelligent_text_splitting_flush_policy (text : List Char) (target : Nat)
    (_hpos : 0 < target) :
    (∀ (sep : List Char) (st : SState) (u : List Char),
        (addUnit target sep st u).segs ≠ st.segs ↔
          st.cur.length + u.length > target ∧ st.cur ≠ []) ∧
    (∀ (sep : List Char) (st : SState) (u : List Char),
        st.cur.length + u.length > target ∧ st.cur ≠ [] →
          addUnit target sep st u = ⟨st.segs ++ [pyStrip st.cur], u ++ sep⟩) ∧
    (∀ (sep : List Char) (st : SState) (u : List Char), st.cur = [] →
        addUnit target sep st u = ⟨st.segs, u ++ sep⟩) ∧
    (∀ seg ∈ intelligent_text_splitting text target,
        seg.length ≤ target ∨ seg ∈ unitsOf text target) := by
  refine ⟨?_, ?_, ?_, ?_⟩
  · intro sep st u
    rw [addUnit]
    split_ifs with h
    · exact ⟨fun _ => h, fun _ => append_singleton_ne⟩
    · exact ⟨fun hne => absurd rfl hne, fun hh => absurd hh h⟩
  · intro sep st u h
    rw [addUnit, if_pos h]
  · intro sep st u hc
    rw [addUnit, if_neg (fun hh => hh.2 hc), hc, List.nil_append]
  · intro seg h
    exact ((mem_intelligent_text_splitting h).2.2).symm

theorem intelligent_text_splitting_flush_policy_witness :
    0 < 10 ∧
    ("Hello world.".data ∈
      intelligent_text_splitting ("Hello world. This is a test.".data) 10) ∧
    ("Hello world.".data.length ≤ 10 ∨
      "Hello world.".data ∈ unitsOf ("Hello world. This is a test.".data) 10) :=
  ⟨by decide, by decide,
    (intelligent_text_splitting_flush_policy ("Hello world. This is a test.".data)
      10 (by decide)).2.2.2 _ (by decide)⟩

/-- C2: every segment returned by `intelligent_text_splitting` is non-empty
and equal to its own stripped form; the concatenation of all segments,
ignoring whitespace (the inserted separators are whitespace), equals the
normalized input's non-whitespace content in order; and empty input yields
the empty output sequence. -/
theorem intelligent_text_splitting_contract (text : List Char) (target : Nat)
    (_hpos : 0 < target) :
    (∀ seg ∈ intelligent_text_splitting text target,
        seg ≠ [] ∧ pyStrip seg = seg) ∧
    filterNW (intelligent_text_splitting text target).flatten =
      filterNW (clean_text text) ∧
    (text = [] → intelligent_text_splitting text target = []) := by
  refine ⟨?_, content_intelligent_text_splitting text target, ?_⟩
  · intro seg h
    have hm := mem_intelligent_text_splitting h
    exact ⟨hm.2.1, pyStrip_of_Stripped hm.1⟩
  · intro h
    subst h
    rfl

theorem intelligent_text_splitting_contract_witness :
    0 < 7 ∧
    ("Hi.".data ∈ intelligent_text_splitting ("Hi.\n\nYo.".data) 7) ∧
    ("Hi.".data ≠ [] ∧ pyStrip ("Hi.".data) = "Hi.".data) :=
  ⟨by decide, by decide,
    (intelligent_text_splitting_contract ("Hi.\n\nYo.".data) 7 (by decide)).1 _
      (by decide)⟩

/-! ### Story builder (auto-ingestion), src/text_processor.py lines 144-162 -/

/-- A segment object built by auto-ingestion: the `{"text": ...}` dict with
an optional explicit `voice_style` key. -/
structure AutoSegment where
  text : List Char
  voice_style : Option String
deriving DecidableEq

/-- The style the cycling assigns to segment index `i`:
`voice_style_pattern[voice_cycle_index % len(voice_style_pattern)]`, where
`voice_cycle_index` equals the enumeration index.  The `getD` default is
unreachable for a non-empty pattern (Python would raise on an empty one). -/
def cycledStyle (pattern : List String) (i : Nat) : String :=
  pattern.getD (i % pattern.length) ("neutral")

/-- One segment object of `auto_ingest_text_file`: the text is stripped
again, and the explicit `voice_style` key is present exactly when the cycled
style differs from `"neutral"`. -/
def mkAutoSegment (pattern : List String) (i : Nat) (t : List Char) : AutoSegment :=
  { text := pyStrip t
    voice_style :=
      if cycledStyle pattern i ≠ "neutral" then some (cycledStyle pattern i) else none }

/-- The segment-building loop of `auto_ingest_text_file`
(src/text_processor.py lines 144-162), carrying the running index. -/
def buildAutoSegs (pattern : List String) : Nat → List (List Char) → List AutoSegment
  | _, [] => []
  | i, t :: ts => mkAutoSegment pattern i t :: buildAutoSegs pattern (i + 1) ts

/-- All segment objects built from the split segments. -/
def buildAutoSegments (pattern : List String) (texts : List (List Char)) :
    List AutoSegment :=
  buildAutoSegs pattern 0 texts

/-- The effective style of a stored segment: the explicit field when
present, else the document default `"neutral"`. -/
def resolvedStyle (s : AutoSegment) : String :=
  s.voice_style.getD ("neutral")

theorem buildAutoSegs_get? (pattern : List String) :
    ∀ (texts : List (List Char)) (n i : Nat),
      (buildAutoSegs pattern n texts).get? i =
        (texts.get? i).map (mkAutoSegment pattern (n + i)) := by
  intro texts
  induction texts with
  | nil => intro n i; rfl
  | cons t ts ih =>
    intro n i
    cases i with
    | zero => rfl
    | succ j =>
      show (buildAutoSegs pattern (n + 1) ts).get? j = (ts.get? j).map _
      rw [ih (n + 1) j]
      have : n + 1 + j = n + (j + 1) := by omega
      rw [this]

/-- C4: in auto-ingestion the voice style of segment `i` is
`pattern[i mod len(pattern)]`, and the stored segment carries an explicit
`voice_style` field exactly when that cycled value differs from
`"neutral"`; for pattern `["neutral", "calm", "neutral"]` and 5 segments the
resolved styles are `[neutral, calm, neutral, neutral, calm]` and only
indices 1 and 4 carry the explicit field. -/
theorem auto_ingest_voice_cycling (pattern : List String) (texts : List (List Char))
    (_hpat : pattern ≠ []) :
    (∀ i seg, (buildAutoSegments pattern texts).get? i = some seg →
        resolvedStyle seg = cycledStyle pattern i ∧
        seg.voice_style = (if cycledStyle pattern i ≠ "neutral"
          then some (cycledStyle pattern i) else none)) ∧
    ((buildAutoSegments ["neutral", "calm", "neutral"]
        [['a'], ['b'], ['c'], ['d'], ['e']]).map resolvedStyle =
      ["neutral", "calm", "neutral", "neutral", "calm"]) ∧
    ((buildAutoSegments ["neutral", "calm", "neutral"]
        [['a'], ['b'], ['c'], ['d'], ['e']]).map
          (fun s => s.voice_style.isSome) = [false, true, false, false, true]) := by
  refine ⟨?_, by decide, by decide⟩
  intro i seg h
  rw [buildAutoSegments, buildAutoSegs_get? pattern texts 0 i] at h
  cases ht : texts.get? i with
  | none => rw [ht] at h; exact absurd h (by simp)
  | some t =>
    rw [ht] at h
    have hseg : seg = mkAutoSegment pattern (0 + i) t := by
      simpa using h.symm
    rw [hseg, Nat.zero_add]
    by_cases hv : cycledStyle pattern i ≠ "neutral"
    · rw [mkAutoSegment]
      simp only [if_pos hv]
      exact ⟨rfl, trivial⟩
    · rw [mkAutoSegment]
      simp only [if_neg hv]
      push_neg at hv
      exact ⟨by simp [resolvedStyle, hv], trivial⟩

theorem auto_ingest_voice_cycling_witness :
    (["neutral", "calm", "neutral"] : List String) ≠ [] ∧
    ((buildAutoSegments ["neutral", "calm", "neutral"]
        [['a'], ['b'], ['c'], ['d'], ['e']]).map resolvedStyle =
      ["neutral", "calm", "neutral", "neutral", "calm"]) :=
  ⟨by decide,
    (auto_ingest_voice_cycling ["neutral", "calm", "neutral"]
      [['a'], ['b'], ['c'], ['d'], ['e']] (by decide)).2.1⟩

/-! ### Pipeline orchestrator, src/story_narrator.py lines 61-119 -/

/-- The global `settings` mapping of a story document; absent keys are
`none`. -/
structure StorySettings where
  voice_style : Option String
  audio_prompt : Option (List Char)
deriving DecidableEq

/-- One segment of a story document. -/
structure StorySegment where
  text : List Char
  voice_style : Option String
  audio_prompt : Option (List Char)
deriving DecidableEq

/-- A story document as consumed by `process_war_story`. -/
structure StoryData where
  settings : StorySettings
  create_full_audio : Bool
  segments : List StorySegment
deriving DecidableEq

/-- `segment.get("voice_style", global_settings.get("voice_style", "neutral"))`
(src/story_narrator.py lines 88-90). -/
def resolve_voice_style (seg : StorySegment) (gs : StorySettings) : String :=
  match seg.voice_style with
  | some v => v
  | none => gs.voice_style.getD ("neutral")

/-- `segment.get("audio_prompt", global_settings.get("audio_prompt"))`
(src/story_narrator.py lines 91-93). -/
def resolve_audio_prompt (seg : StorySegment) (gs : StorySettings) :
    Option (List Char) :=
  match seg.audio_prompt with
  | some p => some p
  | none => gs.audio_prompt

/-- Python `f"{n:03d}"`: decimal digits of `n` zero-padded to width 3. -/
def pad3 (n : Nat) : List Char :=
  let s := (Nat.repr n).data
  if s.length < 3 then List.replicate (3 - s.length) '0' ++ s else s

/-- The per-segment output file name
`f"{story_name}_segment_{i+1:03d}.wav"` (src/story_narrator.py line 107),
with `i` the 0-based loop index. -/
def segPath (name : List Char) (i : Nat) : List Char :=
  name ++ "_segment_".data ++ pad3 (i + 1) ++ ".wav".data

/-- One synthesis-and-save request issued by the orchestrator. -/
structure SynthCall where
  text : List Char
  style : String
  prompt : Option (List Char)
  path : List Char
deriving DecidableEq

/-- The segment loop of `process_war_story` (src/story_narrator.py lines
82-112): skip a segment whose stripped text is empty, otherwise synthesize
with the resolved style and prompt and save under the index-numbered path. -/
def processSegs (gs : StorySettings) (name : List Char) :
    Nat → List StorySegment → List SynthCall
  | _, [] => []
  | i, seg :: rest =>
    if pyStrip seg.text = [] then processSegs gs name (i + 1) rest
    else
      { text := seg.text
        style := resolve_voice_style seg gs
        prompt := resolve_audio_prompt seg gs
        path := segPath name i } :: processSegs gs name (i + 1) rest

/-- `StoryNarrator.process_war_story`: the returned list of generated
per-segment audio file paths. -/
def process_war_story (story : StoryData) (name : List Char) : List (List Char) :=
  (processSegs story.settings name 0 story.segments).map (fun c => c.path)

theorem processSegs_eq (gs : StorySettings) (name : List Char) :
    ∀ (segs : List StorySegment) (n : Nat),
      processSegs gs name n segs =
        ((List.enumFrom n segs).filter (fun p => pyStrip p.2.text ≠ [])).map
          (fun p =>
            { text := p.2.text
              style := resolve_voice_style p.2 gs
              prompt := resolve_audio_prompt p.2 gs
              path := segPath name p.1 }) := by
  intro segs
  induction segs with
  | nil => intro n; rfl
  | cons seg rest ih =>
    intro n
    rw [List.enumFrom_cons, List.filter_cons]
    by_cases hs : pyStrip seg.text = []
    · rw [processSegs, if_pos hs, if_neg (by simp [hs]), ih]
    · rw [processSegs, if_neg hs, if_pos (by simp [hs]), List.map_cons, ih]

/-- C5: the orchestrator produces a synthesis call (and hence a file path in
the returned list) exactly for the segments whose text is non-empty after
stripping, in order, and each path is
`{name}_segment_{i+1:03d}.wav` for the segment's original 0-based position
`i`; skipped segments therefore leave gaps in the numbering, and the
concrete document below (an empty second segment) yields paths numbered
001 and 003. -/
theorem process_war_story_skip_and_numbering (story : StoryData) (name : List Char) :
    process_war_story story name =
      ((story.segments.enum.filter (fun p => pyStrip p.2.text ≠ [])).map
        (fun p => segPath name p.1)) ∧
    process_war_story
      ⟨⟨none, none⟩, true,
        [⟨"One.".data, none, none⟩, ⟨"  ".data, none, none⟩,
         ⟨"Three.".data, none, none⟩]⟩ ("war".data) =
      ["war_segment_001.wav".data, "war_segment_003.wav".data] := by
  constructor
  · rw [process_war_story, processSegs_eq story.settings name story.segments 0,
      List.map_map]
    rfl
  · decide

/-- C8: the effective voice style of a segment is the segment's
`voice_style` when present, else the global `settings.voice_style`, else
`"neutral"`; the effective audio prompt is the segment's `audio_prompt` when
present, else the global `settings.audio_prompt`, else none; and the
orchestrator loop issues each synthesis call with exactly these resolved
values. -/
theorem orchestrator_resolution_precedence :
    (∀ (seg : StorySegment) (gs : StorySettings) (v : String),
        seg.voice_style = some v → resolve_voice_style seg gs = v) ∧
    (∀ (seg : StorySegment) (gs : StorySettings) (g : String),
        seg.voice_style = none → gs.voice_style = some g →
          resolve_voice_style seg gs = g) ∧
    (∀ (seg : StorySegment) (gs : StorySettings),
        seg.voice_style = none → gs.voice_style = none →
          resolve_voice_style seg gs = "neutral") ∧
    (∀ (seg : StorySegment) (gs : StorySettings) (p : List Char),
        seg.audio_prompt = some p → resolve_audio_prompt seg gs = some p) ∧
    (∀ (seg : StorySegment) (gs : StorySettings) (g : List Char),
        seg.audio_prompt = none → gs.audio_prompt = some g →
          resolve_audio_prompt seg gs = some g) ∧
    (∀ (seg : StorySegment) (gs : StorySettings),
        seg.audio_prompt = none → gs.audio_prompt = none →
          resolve_audio_prompt seg gs = none) ∧
    (∀ (gs : StorySettings) (name : List Char) (i : Nat) (seg : StorySegment)
        (rest : List StorySegment), pyStrip seg.text ≠ [] →
        processSegs gs name i (seg :: rest) =
          { text := seg.text
            style := resolve_voice_style seg gs
            prompt := resolve_audio_prompt seg gs
            path := segPath name i } :: processSegs gs name (i + 1) rest) := by
  refine ⟨?_, ?_, ?_, ?_, ?_, ?_, ?_⟩
  · intro seg gs v h; rw [resolve_voice_style, h]
  · intro seg gs g h1 h2; rw [resolve_voice_style, h1, h2]; rfl
  · intro seg gs h1 h2; rw [resolve_voice_style, h1, h2]; rfl
  · intro seg gs p h; rw [resolve_audio_prompt, h]
  · intro seg gs g h1 h2; rw [resolve_audio_prompt, h1, h2]
  · intro seg gs h1 h2; rw [resolve_audio_prompt, h1, h2]
  · intro gs name i seg rest h
    rw [processSegs, if_neg h]

theorem orchestrator_resolution_precedence_witness :
    resolve_voice_style ⟨"hi".data, some ("calm"), none⟩ ⟨some ("neutral"), none⟩ =
      "calm" ∧
    resolve_audio_prompt ⟨"hi".data, none, none⟩ ⟨none, some ("ref.wav".data)⟩ =
      some ("ref.wav".data) :=
  ⟨orchestrator_resolution_precedence.1 _ _ _ rfl,
    orchestrator_resolution_precedence.2.2.2.2.1 _ _ _ rfl rfl⟩

/-! ### Batch processing, src/story_narrator.py lines 140-176 -/

/-- `Path.stem` for the `*.json` files found by the glob: the file name
minus its `.json` suffix. -/
def stem (f : List Char) : List Char :=
  f.take (f.length - 5)

/-- One batch-loop iteration's outcome: the stem used as result key, the
recorded file list, and the status line printed for the document. -/
structure BatchEntry where
  name : List Char
  result : List (List Char)
  log : List Char
deriving DecidableEq

/-- The loop of `batch_process_stories`: per-document processing is the
fallible `process` argument (an exception is an `Except.error`); an error is
caught at the document's boundary, logged with the document name, and
recorded as an empty list. -/
def batchGo (process : List Char → Except (List Char) (List (List Char))) :
    List (List Char) → List BatchEntry
  | [] => []
  | f :: rest =>
    (match process f with
     | Except.ok r => ⟨stem f, r, "✅ Successfully processed ".data ++ f⟩
     | Except.error e =>
        ⟨stem f, [], "❌ Error processing ".data ++ f ++ ": ".data ++ e⟩) ::
      batchGo process rest

/-- `StoryNarrator.batch_process_stories`: the returned mapping from story
stems to generated file paths, in directory-listing order. -/
def batch_process_stories
    (process : List Char → Except (List Char) (List (List Char)))
    (files : List (List Char)) : List (List Char × List (List Char)) :=
  (batchGo process files).map (fun b => (b.name, b.result))

/-- C6: batch processing records an entry for every JSON file found; a
document whose processing raises is logged with its name and mapped to the
empty list, while every other document is still processed; in the concrete
3-document run below where the 2nd raises, all 3 names get entries, the 2nd
maps to the empty list and the 3rd is still processed. -/
theorem batch_isolation
    (process : List Char → Except (List Char) (List (List Char)))
    (files : List (List Char)) :
    ((batch_process_stories process files).map Prod.fst = files.map stem) ∧
    (∀ f ∈ files, ∀ e, process f = Except.error e →
        (stem f, ([] : List (List Char))) ∈ batch_process_stories process files ∧
        ("❌ Error processing ".data ++ f ++ ": ".data ++ e) ∈
          (batchGo process files).map (fun b => b.log)) ∧
    (∀ f ∈ files, ∀ r, process f = Except.ok r →
        (stem f, r) ∈ batch_process_stories process files) ∧
    (batch_process_stories
        (fun f => if f = "b.json".data then Except.error ("boom".data)
          else Except.ok [f])
        ["a.json".data, "b.json".data, "c.json".data] =
      [("a".data, ["a.json".data]), ("b".data, []),
       ("c".data, ["c.json".data])]) := by
  refine ⟨?_, ?_, ?_, by decide⟩
  · induction files with
    | nil => rfl
    | cons f fs ih =>
      rw [batch_process_stories, batchGo] at *
      cases hp : process f <;> simp [hp, ih]
  · induction files with
    | nil => intro f hf; exact absurd hf (List.not_mem_nil f)
    | cons g gs ih =>
      intro f hf e hpe
      rcases List.mem_cons.mp hf with hfg | hfs
      · subst hfg
        rw [batch_process_stories, batchGo, hpe]
        constructor
        · exact List.mem_map.mpr ⟨_, List.mem_cons_self _ _, rfl⟩
        · exact List.mem_map.mpr ⟨_, List.mem_cons_self _ _, rfl⟩
      · have := ih f hfs e hpe
        rw [batch_process_stories, batchGo]
        cases hp : process g <;>
          exact ⟨List.mem_cons_of_mem _ (by simpa [batch_process_stories] using this.1),
            List.mem_cons_of_mem _ (by simpa using this.2)⟩
  · induction files with
    | nil => intro f hf; exact absurd hf (List.not_mem_nil f)
    | cons g gs ih =>
      intro f hf r hpr
      rcases List.mem_cons.mp hf with hfg | hfs
      · subst hfg
        rw [batch_process_stories, batchGo, hpr]
        exact List.mem_map.mpr ⟨_, List.mem_cons_self _ _, rfl⟩
      · have := ih f hfs r hpr
        rw [batch_process_stories, batchGo]
        cases hp : process g <;>
          exact List.mem_cons_of_mem _ (by simpa [batch_process_stories] using this)

theorem batch_isolation_witness :
    (("b.json".data : List Char) ∈
      ["a.json".data, "b.json".data, "c.json".data]) ∧
    (("b".data, ([] : List (List Char))) ∈
      batch_process_stories
        (fun f => if f = "b.json".data then Except.error ("boom".data)
          else Except.ok [f])
        ["a.json".data, "b.json".data, "c.json".data]) :=
  ⟨by decide,
    ((batch_isolation
        (fun f => if f = "b.json".data then Except.error ("boom".data)
          else Except.ok [f])
        ["a.json".data, "b.json".data, "c.json".data]).2.1
      ("b.json".data) (by decide) ("boom".data) rfl).1⟩

/-! ### CLI auto mode and prompt validation, src/main.py and src/utils.py -/

/-- The observable outcome of `auto_mode` (src/main.py lines 8-22):
whether processing proceeded, the `global_audio_prompt` keyword passed to
the pipeline, and the console lines `auto_mode` itself prints.  The
filesystem is abstracted by `fsExists`. -/
structure AutoModeRun where
  proceeded : Bool
  global_audio_prompt : Option (List Char)
  printed : List (List Char)
deriving DecidableEq

/-- `auto_mode`: a missing input file aborts with an error line; otherwise
the voice prompt is forwarded only when it is truthy and the file exists
(`if voice_prompt and Path(voice_prompt).exists()`), with no message in
either case. -/
def auto_mode (fsExists : List Char → Bool) (input_file : List Char)
    (voice_prompt : Option (List Char)) : AutoModeRun :=
  if fsExists input_file = false then
    ⟨false, none, ["❌ File not found: ".data ++ input_file]⟩
  else
    ⟨true,
      (match voice_prompt with
       | some p => if p ≠ [] ∧ fsExists p = true then some p else none
       | none => none),
      ["🎖️ Processing large text: ".data ++ input_file]⟩

/-- `validate_audio_prompt` (src/utils.py lines 35-55): returns whether the
prompt is usable, together with the warning lines it prints.  No module of
the repository ever calls this function. -/
def validate_audio_prompt (fsExists : List Char → Bool)
    (audio_path : Option (List Char)) : Bool × List (List Char) :=
  match audio_path with
  | none => (true, [])
  | some p =>
    if fsExists p = true then (true, [])
    else (false, ["⚠️  Audio prompt file not found: ".data ++ p,
                  "   Proceeding without voice cloning...".data])

/-- C9 counterexample: with an existing input file and a supplied but
missing voice prompt, `auto_mode` proceeds without voice cloning and does
not fail — but no warning is emitted (no printed line starts with the
warning marker), contradicting the claim that a warning accompanies the
graceful degradation. -/
theorem auto_mode_missing_prompt_no_warning :
    (fun f => f = "story.txt".data) ("voice.wav".data) = false ∧
    (auto_mode (fun f => f = "story.txt".data) ("story.txt".data)
        (some ("voice.wav".data))).proceeded = true ∧
    (auto_mode (fun f => f = "story.txt".data) ("story.txt".data)
        (some ("voice.wav".data))).global_audio_prompt = none ∧
    (∀ line ∈ (auto_mode (fun f => f = "story.txt".data) ("story.txt".data)
        (some ("voice.wav".data))).printed, line.head? ≠ some '⚠') := by
  decide

/-- C9 (amended): when a supplied audio-prompt path does not exist, auto
mode degrades gracefully — processing proceeds, voice cloning is disabled
and the run does not fail — but silently: none of its printed lines is a
warning.  The helper `validate_audio_prompt` would print the warning and
return `false`, but it is called by no module of the repository. -/
theorem auto_mode_missing_prompt_graceful (fsExists : List Char → Bool)
    (input p : List Char) (hin : fsExists input = true) (_hp : p ≠ [])
    (hmiss : fsExists p = false) :
    (auto_mode fsExists input (some p)).proceeded = true ∧
    (auto_mode fsExists input (some p)).global_audio_prompt = none ∧
    (∀ line ∈ (auto_mode fsExists input (some p)).printed,
        line.head? ≠ some '⚠') ∧
    (validate_audio_prompt fsExists (some p)).1 = false ∧
    ("⚠️  Audio prompt file not found: ".data ++ p) ∈
      (validate_audio_prompt fsExists (some p)).2 := by
  have hin2 : ¬(fsExists input = false) := by simp [hin]
  have hmiss2 : ¬(fsExists p = true) := by simp [hmiss]
  rw [auto_mode, if_neg hin2, validate_audio_prompt, if_neg hmiss2]
  refine ⟨rfl, by simp [hmiss], ?_, rfl, List.mem_cons_self _ _⟩
  intro line hline
  have hl : line = "🎖️ Processing large text: ".data ++ input := by simpa using hline
  have hhead : (("🎖️ Processing large text: ".data : List Char) ++ input).head? =
      some '🎖' := rfl
  rw [hl, hhead]
  decide

theorem auto_mode_missing_prompt_graceful_witness :
    ((fun f => f = "in.txt".data) ("in.txt".data) = true) ∧
    (("x.wav".data : List Char) ≠ []) ∧
    ((fun f => f = "in.txt".data) ("x.wav".data) = false) ∧
    (auto_mode (fun f => f = "in.txt".data) ("in.txt".data)
        (some ("x.wav".data))).global_audio_prompt = none :=
  ⟨by decide, by decide, by decide,
    (auto_mode_missing_prompt_graceful (fun f => f = "in.txt".data)
      ("in.txt".data) ("x.wav".data) (by decide) (by decide) (by decide)).2.1⟩

/-! ### Voice presets and synthesis parameters, src/audio_generator.py and
src/config.py -/

/-- The `VOICE_PRESETS` mapping of src/config.py: synthesis-control
parameters per style name (floats modelled as rationals). -/
def VOICE_PRESETS : List (String × List (String × ℚ)) :=
  [("neutral", [("exaggeration", (1 : ℚ)/2), ("cfg_weight", (1 : ℚ)/2)]),
   ("calm", [("exaggeration", (3 : ℚ)/10), ("cfg_weight", (7 : ℚ)/10)])]

/-- `VOICE_PRESETS.get(voice_style, VOICE_PRESETS["neutral"])`
(src/audio_generator.py line 50). -/
def presetsGet (style : String) : List (String × ℚ) :=
  (VOICE_PRESETS.lookup style).getD ((VOICE_PRESETS.lookup ("neutral")).getD [])

/-- Python `dict` assignment `d[k] = v`: overwrite in place when the key
exists, else append. -/
def dictSet (d : List (String × ℚ)) (k : String) (v : ℚ) : List (String × ℚ) :=
  if d.any (fun kv => kv.1 = k) then
    d.map (fun kv => if kv.1 = k then (k, v) else kv)
  else d ++ [(k, v)]

/-- Python `dict.update`: apply each key-value assignment in order. -/
def dictUpdate (d upd : List (String × ℚ)) : List (String × ℚ) :=
  upd.foldl (fun acc kv => dictSet acc kv.1 kv.2) d

/-- The call issued to the external TTS model by
`AudioGenerator.generate_segment_audio`: the text, the optional
voice-cloning prompt, and the resolved synthesis parameters. -/
structure ModelCall where
  text : List Char
  audio_prompt_path : Option (List Char)
  params : List (String × ℚ)
deriving DecidableEq

/-- `AudioGenerator.generate_segment_audio` (src/audio_generator.py lines
30-64): parameters come from the preset for `voice_style`, falling back to
the `"neutral"` preset for unknown names, then caller overrides are merged;
a truthy `audio_prompt_path` is forwarded to the model. -/
def generate_segment_audio (text : List Char) (voice_style : String)
    (audio_prompt_path : Option (List Char))
    (custom_params : List (String × ℚ)) : ModelCall :=
  let params := presetsGet voice_style
  let params := if custom_params ≠ [] then dictUpdate params custom_params else params
  { text := text
    audio_prompt_path :=
      (match audio_prompt_path with
       | some p => if p ≠ [] then some p else none
       | none => none)
    params := params }

/-- C10: for any `voice_style` other than the defined presets `"neutral"`
and `"calm"`, `generate_segment_audio` raises no error (it is total) and
issues exactly the call it would issue for `"neutral"`: the unknown name
silently falls back to the neutral preset's parameters before any
caller-supplied overrides are merged. -/
theorem generate_unknown_style_is_neutral (text : List Char)
    (audio_prompt_path : Option (List Char)) (custom_params : List (String × ℚ))
    (style : String) (h1 : style ≠ "neutral") (h2 : style ≠ "calm") :
    generate_segment_audio text style audio_prompt_path custom_params =
      generate_segment_audio text ("neutral") audio_prompt_path custom_params := by
  have hpre : presetsGet style = presetsGet ("neutral") := by
    have hb1 : (style == "neutral") = false := beq_eq_false_iff_ne.mpr h1
    have hb2 : (style == "calm") = false := beq_eq_false_iff_ne.mpr h2
    rw [presetsGet, presetsGet, VOICE_PRESETS]
    rw [List.lookup, List.lookup, List.lookup, List.lookup]
    rw [hb1, hb2]
    rfl
  unfold generate_segment_audio
  rw [hpre]

theorem generate_unknown_style_is_neutral_witness :
    (("dramatic" : String) ≠ "neutral") ∧ (("dramatic" : String) ≠ "calm") ∧
    generate_segment_audio ("hi".data) ("dramatic") none
        [("cfg_weight", (9 : ℚ)/10)] =
      generate_segment_audio ("hi".data) ("neutral") none
        [("cfg_weight", (9 : ℚ)/10)] :=
  ⟨by decide, by decide,
    generate_unknown_style_is_neutral ("hi".data) none
      [("cfg_weight", (9 : ℚ)/10)] ("dramatic") (by decide) (by decide)⟩

/-! ### JSON serialization (json.dump with indent=4, ensure_ascii=False)
and deserialization (json.load), for the round-trip of the auto-ingested
story document.  The document contains only strings, booleans, arrays and
objects, so numbers and null are not modelled. -/

/-- JSON values produced by serializing the story document. -/
inductive JVal where
  | jstr : List Char → JVal
  | jbool : Bool → JVal
  | jarr : List JVal → JVal
  | jobj : List (List Char × JVal) → JVal

/-- Lowercase hexadecimal digit, as Python's json module emits. -/
def hexDig (n : Nat) : Char :=
  if n < 10 then Char.ofNat (48 + n) else Char.ofNat (87 + n)

/-- The escaping of one character inside a JSON string
(`ensure_ascii=False`): quote, backslash and control characters are
escaped (with the two-character shortcuts where they exist, else
`\u00XX`), everything else is emitted raw. -/
def esc (c : Char) : List Char :=
  if c = '"' then ['\\', '"']
  else if c = '\\' then ['\\', '\\']
  else if c = '\n' then ['\\', 'n']
  else if c = '\t' then ['\\', 't']
  else if c = '\r' then ['\\', 'r']
  else if c.toNat = 8 then ['\\', 'b']
  else if c.toNat = 12 then ['\\', 'f']
  else if c.toNat < 32 then
    ['\\', 'u', '0', '0', hexDig (c.toNat / 16), hexDig (c.toNat % 16)]
  else [c]

/-- A JSON string literal: quoted, character-wise escaped content. -/
def printStr (s : List Char) : List Char :=
  '"' :: (s.map esc).flatten ++ ['"']

/-- The newline-plus-indentation separator of `indent=4` output. -/
def nlInd (ind : Nat) : List Char :=
  '\n' :: List.replicate (4 * ind) ' '

mutual

/-- Serialize a JSON value at indentation level `ind`, mirroring
`json.dump(..., indent=4, ensure_ascii=False)`. -/
def printVal : Nat → JVal → List Char
  | _, .jstr s => printStr s
  | _, .jbool b => if b then "true".data else "false".data
  | _, .jarr [] => "[]".data
  | ind, .jarr (x :: xs) =>
    '[' :: (nlInd (ind + 1) ++ printItems (ind + 1) x xs ++ nlInd ind ++ [']'])
  | _, .jobj [] => ['\x7b', '\x7d']
  | ind, .jobj (f :: fs) =>
    '\x7b' :: (nlInd (ind + 1) ++ printFields (ind + 1) f fs ++ nlInd ind ++ ['\x7d'])
termination_by _ v => sizeOf v
decreasing_by all_goals (simp <;> omega)

/-- Serialize the comma-and-newline separated items of a non-empty array. -/
def printItems : Nat → JVal → List JVal → List Char
  | ind, x, [] => printVal ind x
  | ind, x, y :: ys => printVal ind x ++ ',' :: (nlInd ind ++ printItems ind y ys)
termination_by _ x xs => 1 + sizeOf x + sizeOf xs
decreasing_by all_goals (simp <;> omega)

/-- Serialize the comma-and-newline separated `"key": value` fields of a
non-empty object. -/
def printFields : Nat → (List Char × JVal) → List (List Char × JVal) → List Char
  | ind, (k, v), [] => printStr k ++ ':' :: ' ' :: printVal ind v
  | ind, (k, v), g :: gs =>
    printStr k ++ ':' :: ' ' :: printVal ind v ++ ',' :: (nlInd ind ++ printFields ind g gs)
termination_by _ f fs => 1 + sizeOf f + sizeOf fs
decreasing_by all_goals (simp <;> omega)

end

/-- Serialize a whole document, as `json.dump` does at top level. -/
def jprint (v : JVal) : List Char :=
  printVal 0 v

/-- The whitespace the JSON grammar allows between tokens. -/
def jsonWs (c : Char) : Bool :=
  c = ' ' || c = '\t' || c = '\n' || c = '\r'

/-- Skip inter-token whitespace. -/
def skipWs (l : List Char) : List Char :=
  l.dropWhile jsonWs

/-- The value of one hexadecimal digit. -/
def hexVal (c : Char) : Option Nat :=
  if 48 ≤ c.toNat ∧ c.toNat ≤ 57 then some (c.toNat - 48)
  else if 97 ≤ c.toNat ∧ c.toNat ≤ 102 then some (c.toNat - 87)
  else if 65 ≤ c.toNat ∧ c.toNat ≤ 70 then some (c.toNat - 55)
  else none

/-- Parse the body of a JSON string after its opening quote: unescape until
the closing quote, returning the content and the remaining input. -/
def parseStrBody : List Char → Option (List Char × List Char)
  | [] => none
  | c :: rest =>
    if c = '"' then some ([], rest)
    else if c = '\\' then
      match rest with
      | [] => none
      | e :: rest2 =>
        if e = '"' then (parseStrBody rest2).map (fun p => ('"' :: p.1, p.2))
        else if e = '\\' then (parseStrBody rest2).map (fun p => ('\\' :: p.1, p.2))
        else if e = '/' then (parseStrBody rest2).map (fun p => ('/' :: p.1, p.2))
        else if e = 'n' then (parseStrBody rest2).map (fun p => ('\n' :: p.1, p.2))
        else if e = 't' then (parseStrBody rest2).map (fun p => ('\t' :: p.1, p.2))
        else if e = 'r' then (parseStrBody rest2).map (fun p => ('\r' :: p.1, p.2))
        else if e = 'b' then (parseStrBody rest2).map (fun p => (Char.ofNat 8 :: p.1, p.2))
        else if e = 'f' then (parseStrBody rest2).map (fun p => (Char.ofNat 12 :: p.1, p.2))
        else if e = 'u' then
          match rest2 with
          | h1 :: h2 :: h3 :: h4 :: rest3 =>
            match hexVal h1, hexVal h2, hexVal h3, hexVal h4 with
            | some a, some b, some c2, some d =>
              (parseStrBody rest3).map
                (fun p => (Char.ofNat (((a * 16 + b) * 16 + c2) * 16 + d) :: p.1, p.2))
            | _, _, _, _ => none
          | _ => none
        else none
    else (parseStrBody rest).map (fun p => (c :: p.1, p.2))
termination_by l => l.length
decreasing_by all_goals simp <;> omega

mutual

/-- Parse one JSON value (of the grammar the story serializer emits),
skipping leading whitespace.  The fuel bounds the nesting depth. -/
def parseVal : Nat → List Char → Option (JVal × List Char)
  | 0, _ => none
  | fuel + 1, l =>
    match skipWs l with
    | '"' :: rest => (parseStrBody rest).map (fun p => (JVal.jstr p.1, p.2))
    | 't' :: 'r' :: 'u' :: 'e' :: rest => some (JVal.jbool true, rest)
    | 'f' :: 'a' :: 'l' :: 's' :: 'e' :: rest => some (JVal.jbool false, rest)
    | '[' :: rest =>
      (match skipWs rest with
       | ']' :: rest2 => some (JVal.jarr [], rest2)
       | _ => (parseItems fuel rest).map (fun p => (JVal.jarr p.1, p.2)))
    | '\x7b' :: rest =>
      (match skipWs rest with
       | '\x7d' :: rest2 => some (JVal.jobj [], rest2)
       | _ => (parseFields fuel rest).map (fun p => (JVal.jobj p.1, p.2)))
    | _ => none

/-- Parse the comma-separated items of a non-empty array, consuming the
closing bracket. -/
def parseItems : Nat → List Char → Option (List JVal × List Char)
  | 0, _ => none
  | fuel + 1, l =>
    match parseVal fuel l with
    | none => none
    | some (v, r) =>
      match skipWs r with
      | ',' :: r2 => (parseItems fuel r2).map (fun p => (v :: p.1, p.2))
      | ']' :: r2 => some ([v], r2)
      | _ => none

/-- Parse the comma-separated fields of a non-empty object, consuming the
closing brace. -/
def parseFields : Nat → List Char → Option (List (List Char × JVal) × List Char)
  | 0, _ => none
  | fuel + 1, l =>
    match skipWs l with
    | '"' :: rest =>
      (match parseStrBody rest with
       | none => none
       | some (k, r) =>
         match skipWs r with
         | ':' :: r2 =>
           (match parseVal fuel r2 with
            | none => none
            | some (v, r3) =>
              match skipWs r3 with
              | ',' :: r4 => (parseFields fuel r4).map (fun (p : List (List Char × JVal) × List Char) => ((k, v) :: p.1, p.2))
              | '\x7d' :: r4 => some ([(k, v)], r4)
              | _ => none)
         | _ => none)
    | _ => none

end

/-- `json.load`: parse one value and require only whitespace after it. -/
def jparse (l : List Char) : Option JVal :=
  match parseVal (l.length + 1) l with
  | some (v, rest) => if skipWs rest = [] then some v else none
  | none => none

mutual

/-- Parser fuel needed for a value: one unit per parser-recursion level. -/
def jsize : JVal → Nat
  | .jstr _ => 1
  | .jbool _ => 1
  | .jarr [] => 1
  | .jarr (x :: xs) => 1 + jsizeItems x xs
  | .jobj [] => 1
  | .jobj (f :: fs) => 1 + jsizeFields f fs
termination_by v => sizeOf v
decreasing_by all_goals (simp <;> omega)

/-- Parser fuel needed for a non-empty item list. -/
def jsizeItems : JVal → List JVal → Nat
  | x, [] => 1 + jsize x
  | x, y :: ys => 1 + jsize x + jsizeItems y ys
termination_by x xs => 1 + sizeOf x + sizeOf xs
decreasing_by all_goals (simp <;> omega)

/-- Parser fuel needed for a non-empty field list. -/
def jsizeFields : (List Char × JVal) → List (List Char × JVal) → Nat
  | (_, v), [] => 1 + jsize v
  | (_, v), g :: gs => 1 + jsize v + jsizeFields g gs
termination_by f fs => 1 + sizeOf f + sizeOf fs
decreasing_by all_goals (simp <;> omega)

end

theorem jsize_pos (v : JVal) : 1 ≤ jsize v := by
  cases v with
  | jstr s => simp [jsize]
  | jbool b => simp [jsize]
  | jarr xs => cases xs <;> simp [jsize]
  | jobj fs =>
    cases fs with
    | nil => simp [jsize]
    | cons f fs => cases f; simp [jsize]

theorem jsizeItems_pos (x : JVal) (xs : List JVal) : 1 ≤ jsizeItems x xs := by
  cases xs with
  | nil => simp [jsizeItems]
  | cons y ys => simp [jsizeItems]; omega

theorem jsizeFields_pos (f : List Char × JVal) (fs : List (List Char × JVal)) :
    1 ≤ jsizeFields f fs := by
  cases f
  cases fs with
  | nil => simp [jsizeFields]
  | cons g gs => simp [jsizeFields]; omega

theorem skipWs_ws_append {w : List Char} (h : ∀ c ∈ w, jsonWs c = true)
    (l : List Char) : skipWs (w ++ l) = skipWs l := by
  induction w with
  | nil => rfl
  | cons c cs ih =>
    rw [List.cons_append, skipWs, List.dropWhile_cons,
      if_pos (h c (List.mem_cons_self c cs))]
    exact ih fun d hd => h d (List.mem_cons_of_mem _ hd)

theorem skipWs_cons_neg {c : Char} (h : jsonWs c = false) (l : List Char) :
    skipWs (c :: l) = c :: l := by
  rw [skipWs, List.dropWhile_cons, if_neg (by simp [h])]

theorem nlInd_ws (ind : Nat) : ∀ c ∈ nlInd ind, jsonWs c = true := by
  intro c hc
  rw [nlInd] at hc
  rcases List.mem_cons.mp hc with rfl | hc
  · decide
  · rw [List.eq_of_mem_replicate hc]
    decide

theorem parseStrBody_quote (l : List Char) :
    parseStrBody ('"' :: l) = some ([], l) := by
  rw [parseStrBody.eq_def]
  simp

theorem parseStrBody_raw {c : Char} (h1 : ¬c = '"') (h2 : ¬c = '\\')
    (l : List Char) :
    parseStrBody (c :: l) = (parseStrBody l).map (fun p => (c :: p.1, p.2)) := by
  rw [parseStrBody.eq_def]
  simp only [if_neg h1, if_neg h2]

theorem hexVal_hexDig : ∀ n < 16, hexVal (hexDig n) = some n := by decide

theorem parseStrBody_esc_quote (l : List Char) :
    parseStrBody ('\\' :: '"' :: l) =
      (parseStrBody l).map (fun p => ('"' :: p.1, p.2)) := by
  rw [parseStrBody.eq_def]
  simp

theorem parseStrBody_esc_backslash (l : List Char) :
    parseStrBody ('\\' :: '\\' :: l) =
      (parseStrBody l).map (fun p => ('\\' :: p.1, p.2)) := by
  rw [parseStrBody.eq_def]
  simp

theorem parseStrBody_esc_n (l : List Char) :
    parseStrBody ('\\' :: 'n' :: l) =
      (parseStrBody l).map (fun p => ('\n' :: p.1, p.2)) := by
  rw [parseStrBody.eq_def]
  simp

theorem parseStrBody_esc_t (l : List Char) :
    parseStrBody ('\\' :: 't' :: l) =
      (parseStrBody l).map (fun p => ('\t' :: p.1, p.2)) := by
  rw [parseStrBody.eq_def]
  simp

theorem parseStrBody_esc_r (l : List Char) :
    parseStrBody ('\\' :: 'r' :: l) =
      (parseStrBody l).map (fun p => ('\r' :: p.1, p.2)) := by
  rw [parseStrBody.eq_def]
  simp

theorem parseStrBody_esc_b (l : List Char) :
    parseStrBody ('\\' :: 'b' :: l) =
      (parseStrBody l).map (fun p => (Char.ofNat 8 :: p.1, p.2)) := by
  rw [parseStrBody.eq_def]
  simp

theorem parseStrBody_esc_f (l : List Char) :
    parseStrBody ('\\' :: 'f' :: l) =
      (parseStrBody l).map (fun p => (Char.ofNat 12 :: p.1, p.2)) := by
  rw [parseStrBody.eq_def]
  simp

theorem parseStrBody_esc_u {c : Char} (h : c.toNat < 32) (l : List Char) :
    parseStrBody ('\\' :: 'u' :: '0' :: '0' ::
        hexDig (c.toNat / 16) :: hexDig (c.toNat % 16) :: l) =
      (parseStrBody l).map (fun p => (c :: p.1, p.2)) := by
  have h1 : hexVal (hexDig (c.toNat / 16)) = some (c.toNat / 16) :=
    hexVal_hexDig _ (by omega)
  have h2 : hexVal (hexDig (c.toNat % 16)) = some (c.toNat % 16) :=
    hexVal_hexDig _ (by omega)
  have h0 : hexVal '0' = some 0 := by decide
  rw [parseStrBody.eq_def]
  simp only [if_neg (by decide : ¬('\\' : Char) = '"'),
    if_pos (rfl : ('\\' : Char) = '\\')]
  simp only [if_neg (by decide : ¬('u' : Char) = '"'),
    if_neg (by decide : ¬('u' : Char) = '\\'),
    if_neg (by decide : ¬('u' : Char) = '/'),
    if_neg (by decide : ¬('u' : Char) = 'n'),
    if_neg (by decide : ¬('u' : Char) = 't'),
    if_neg (by decide : ¬('u' : Char) = 'r'),
    if_neg (by decide : ¬('u' : Char) = 'b'),
    if_neg (by decide : ¬('u' : Char) = 'f'),
    if_pos (rfl : ('u' : Char) = 'u')]
  rw [h0, h1, h2]
  have harith : ((0 * 16 + 0) * 16 + c.toNat / 16) * 16 + c.toNat % 16 = c.toNat := by
    omega
  simp only [harith, Char.ofNat_toNat]
  simp

theorem parseStr_roundtrip (s rest : List Char) :
    parseStrBody ((s.map esc).flatten ++ '"' :: rest) = some (s, rest) := by
  induction s with
  | nil => simpa using parseStrBody_quote rest
  | cons c cs ih =>
    show parseStrBody ((esc c ++ (cs.map esc).flatten) ++ '"' :: rest) = _
    rw [List.append_assoc, esc]
    split_ifs with h1 h2 h3 h4 h5 h6 h7 h8
    · subst h1
      rw [List.cons_append, List.cons_append, List.nil_append,
        parseStrBody_esc_quote, ih]
      rfl
    · subst h2
      rw [List.cons_append, List.cons_append, List.nil_append,
        parseStrBody_esc_backslash, ih]
      rfl
    · subst h3
      rw [List.cons_append, List.cons_append, List.nil_append,
        parseStrBody_esc_n, ih]
      rfl
    · subst h4
      rw [List.cons_append, List.cons_append, List.nil_append,
        parseStrBody_esc_t, ih]
      rfl
    · subst h5
      rw [List.cons_append, List.cons_append, List.nil_append,
        parseStrBody_esc_r, ih]
      rfl
    · have hc : c = Char.ofNat 8 := by rw [← Char.ofNat_toNat c, h6]
      rw [List.cons_append, List.cons_append, List.nil_append,
        parseStrBody_esc_b, ih, hc]
      rfl
    · have hc : c = Char.ofNat 12 := by rw [← Char.ofNat_toNat c, h7]
      rw [List.cons_append, List.cons_append, List.nil_append,
        parseStrBody_esc_f, ih, hc]
      rfl
    · simp only [List.cons_append, List.nil_append]
      rw [parseStrBody_esc_u h8, ih]
      rfl
    · rw [List.singleton_append, parseStrBody_raw h1 h2, ih]
      rfl

theorem printStr_eq (k : List Char) :
    printStr k = '"' :: ((k.map esc).flatten ++ ['"']) := by
  rw [printStr, List.cons_append]

theorem printStr_append (k X : List Char) :
    printStr k ++ X = '"' :: ((k.map esc).flatten ++ ('"' :: X)) := by
  rw [printStr]
  simp [List.append_assoc]

theorem printVal_head (ind : Nat) (v : JVal) :
    ∃ c cs, printVal ind v = c :: cs ∧ jsonWs c = false ∧ c ≠ ']' ∧ c ≠ '\x7d' := by
  cases v with
  | jstr s =>
    refine ⟨'"', (s.map esc).flatten ++ ['"'], ?_, by decide, by decide, by decide⟩
    rw [printVal, printStr_eq]
  | jbool b =>
    cases b
    · refine ⟨'f', ['a', 'l', 's', 'e'], ?_, by decide, by decide, by decide⟩
      rw [printVal]
      rfl
    · refine ⟨'t', ['r', 'u', 'e'], ?_, by decide, by decide, by decide⟩
      rw [printVal]
      rfl
  | jarr xs =>
    cases xs with
    | nil =>
      refine ⟨'[', [']'], ?_, by decide, by decide, by decide⟩
      rw [printVal]
    | cons x xs =>
      refine ⟨'[', nlInd (ind + 1) ++ printItems (ind + 1) x xs ++ nlInd ind ++ [']'],
        ?_, by decide, by decide, by decide⟩
      rw [printVal]
  | jobj fs =>
    cases fs with
    | nil =>
      refine ⟨'\x7b', ['\x7d'], ?_, by decide, by decide, by decide⟩
      rw [printVal]
    | cons f fs =>
      refine ⟨'\x7b',
        nlInd (ind + 1) ++ printFields (ind + 1) f fs ++ nlInd ind ++ ['\x7d'],
        ?_, by decide, by decide, by decide⟩
      rw [printVal]

theorem parseVal_str (fuel : Nat) {l B : List Char} (h : skipWs l = '"' :: B) :
    parseVal (fuel + 1) l = (parseStrBody B).map (fun p => (JVal.jstr p.1, p.2)) := by
  rw [parseVal, h]
  rfl

theorem parseVal_true (fuel : Nat) {l B : List Char}
    (h : skipWs l = 't' :: ('r' :: ('u' :: ('e' :: B)))) :
    parseVal (fuel + 1) l = some (JVal.jbool true, B) := by
  rw [parseVal, h]
  rfl

theorem parseVal_false (fuel : Nat) {l B : List Char}
    (h : skipWs l = 'f' :: ('a' :: ('l' :: ('s' :: ('e' :: B))))) :
    parseVal (fuel + 1) l = some (JVal.jbool false, B) := by
  rw [parseVal, h]
  rfl

theorem parseVal_arr_nil (fuel : Nat) {l B C : List Char} (h : skipWs l = '[' :: B)
    (h2 : skipWs B = ']' :: C) :
    parseVal (fuel + 1) l = some (JVal.jarr [], C) := by
  rw [parseVal, h]
  show (match skipWs B with
        | ']' :: rest2 => some (JVal.jarr [], rest2)
        | _ => (parseItems fuel B).map (fun p => (JVal.jarr p.1, p.2))) =
      some (JVal.jarr [], C)
  rw [h2]
  rfl

theorem parseVal_arr_go (fuel : Nat) {l B : List Char} {c : Char} {cs : List Char}
    (h : skipWs l = '[' :: B) (h2 : skipWs B = c :: cs) (hc : c ≠ ']') :
    parseVal (fuel + 1) l = (parseItems fuel B).map (fun p => (JVal.jarr p.1, p.2)) := by
  rw [parseVal, h]
  show (match skipWs B with
        | ']' :: rest2 => some (JVal.jarr [], rest2)
        | _ => (parseItems fuel B).map (fun p => (JVal.jarr p.1, p.2))) =
      (parseItems fuel B).map (fun p => (JVal.jarr p.1, p.2))
  rw [h2]
  split
  · rename_i heq
    obtain ⟨h1, _⟩ := List.cons.inj heq
    exact absurd h1 hc
  · rfl

theorem parseVal_obj_nil (fuel : Nat) {l B C : List Char} (h : skipWs l = '\x7b' :: B)
    (h2 : skipWs B = '\x7d' :: C) :
    parseVal (fuel + 1) l = some (JVal.jobj [], C) := by
  rw [parseVal, h]
  show (match skipWs B with
        | '\x7d' :: rest2 => some (JVal.jobj [], rest2)
        | _ => (parseFields fuel B).map (fun p => (JVal.jobj p.1, p.2))) =
      some (JVal.jobj [], C)
  rw [h2]
  rfl

theorem parseVal_obj_go (fuel : Nat) {l B : List Char} {c : Char} {cs : List Char}
    (h : skipWs l = '\x7b' :: B) (h2 : skipWs B = c :: cs) (hc : c ≠ '\x7d') :
    parseVal (fuel + 1) l = (parseFields fuel B).map (fun p => (JVal.jobj p.1, p.2)) := by
  rw [parseVal, h]
  show (match skipWs B with
        | '\x7d' :: rest2 => some (JVal.jobj [], rest2)
        | _ => (parseFields fuel B).map (fun p => (JVal.jobj p.1, p.2))) =
      (parseFields fuel B).map (fun p => (JVal.jobj p.1, p.2))
  rw [h2]
  split
  · rename_i heq
    obtain ⟨h1, _⟩ := List.cons.inj heq
    exact absurd h1 hc
  · rfl

theorem parseItems_comma (fuel : Nat) {l r r2 : List Char} {v : JVal}
    (h : parseVal fuel l = some (v, r)) (h2 : skipWs r = ',' :: r2) :
    parseItems (fuel + 1) l = (parseItems fuel r2).map (fun p => (v :: p.1, p.2)) := by
  rw [parseItems, h]
  show (match skipWs r with
        | ',' :: r2 => (parseItems fuel r2).map (fun p => (v :: p.1, p.2))
        | ']' :: r2 => some ([v], r2)
        | _ => none) = (parseItems fuel r2).map (fun p => (v :: p.1, p.2))
  rw [h2]
  rfl

theorem parseItems_close (fuel : Nat) {l r r2 : List Char} {v : JVal}
    (h : parseVal fuel l = some (v, r)) (h2 : skipWs r = ']' :: r2) :
    parseItems (fuel + 1) l = some ([v], r2) := by
  rw [parseItems, h]
  show (match skipWs r with
        | ',' :: r2 => (parseItems fuel r2).map (fun p => (v :: p.1, p.2))
        | ']' :: r2 => some ([v], r2)
        | _ => none) = some ([v], r2)
  rw [h2]
  rfl

theorem parseFields_comma (fuel : Nat) {l B k r r2 r3 r4 : List Char} {v : JVal}
    (h0 : skipWs l = '"' :: B) (h1 : parseStrBody B = some (k, r))
    (h2 : skipWs r = ':' :: r2) (h3 : parseVal fuel r2 = some (v, r3))
    (h4 : skipWs r3 = ',' :: r4) :
    parseFields (fuel + 1) l =
      (parseFields fuel r4).map (fun p => ((k, v) :: p.1, p.2)) := by
  rw [parseFields, h0]
  show (match parseStrBody B with
        | none => none
        | some (k, r) =>
          match skipWs r with
          | ':' :: r2 =>
            (match parseVal fuel r2 with
             | none => none
             | some (v, r3) =>
               match skipWs r3 with
               | ',' :: r4 => (parseFields fuel r4).map (fun (p : List (List Char × JVal) × List Char) => ((k, v) :: p.1, p.2))
               | '\x7d' :: r4 => some ([(k, v)], r4)
               | _ => none)
          | _ => none) = _
  rw [h1]
  show (match skipWs r with
        | ':' :: r2 =>
          (match parseVal fuel r2 with
           | none => none
           | some (v, r3) =>
             match skipWs r3 with
             | ',' :: r4 => (parseFields fuel r4).map (fun (p : List (List Char × JVal) × List Char) => ((k, v) :: p.1, p.2))
             | '\x7d' :: r4 => some ([(k, v)], r4)
             | _ => none)
        | _ => none) = _
  rw [h2]
  show (match parseVal fuel r2 with
        | none => none
        | some (v, r3) =>
          match skipWs r3 with
          | ',' :: r4 => (parseFields fuel r4).map (fun (p : List (List Char × JVal) × List Char) => ((k, v) :: p.1, p.2))
          | '\x7d' :: r4 => some ([(k, v)], r4)
          | _ => none) = _
  rw [h3]
  show (match skipWs r3 with
        | ',' :: r4 => (parseFields fuel r4).map (fun (p : List (List Char × JVal) × List Char) => ((k, v) :: p.1, p.2))
        | '\x7d' :: r4 => some ([(k, v)], r4)
        | _ => none) = _
  rw [h4]
  rfl

theorem parseFields_close (fuel : Nat) {l B k r r2 r3 r4 : List Char} {v : JVal}
    (h0 : skipWs l = '"' :: B) (h1 : parseStrBody B = some (k, r))
    (h2 : skipWs r = ':' :: r2) (h3 : parseVal fuel r2 = some (v, r3))
    (h4 : skipWs r3 = '\x7d' :: r4) :
    parseFields (fuel + 1) l = some ([(k, v)], r4) := by
  rw [parseFields, h0]
  show (match parseStrBody B with
        | none => none
        | some (k, r) =>
          match skipWs r with
          | ':' :: r2 =>
            (match parseVal fuel r2 with
             | none => none
             | some (v, r3) =>
               match skipWs r3 with
               | ',' :: r4 => (parseFields fuel r4).map (fun (p : List (List Char × JVal) × List Char) => ((k, v) :: p.1, p.2))
               | '\x7d' :: r4 => some ([(k, v)], r4)
               | _ => none)
          | _ => none) = _
  rw [h1]
  show (match skipWs r with
        | ':' :: r2 =>
          (match parseVal fuel r2 with
           | none => none
           | some (v, r3) =>
             match skipWs r3 with
             | ',' :: r4 => (parseFields fuel r4).map (fun (p : List (List Char × JVal) × List Char) => ((k, v) :: p.1, p.2))
             | '\x7d' :: r4 => some ([(k, v)], r4)
             | _ => none)
        | _ => none) = _
  rw [h2]
  show (match parseVal fuel r2 with
        | none => none
        | some (v, r3) =>
          match skipWs r3 with
          | ',' :: r4 => (parseFields fuel r4).map (fun (p : List (List Char × JVal) × List Char) => ((k, v) :: p.1, p.2))
          | '\x7d' :: r4 => some ([(k, v)], r4)
          | _ => none) = _
  rw [h3]
  show (match skipWs r3 with
        | ',' :: r4 => (parseFields fuel r4).map (fun (p : List (List Char × JVal) × List Char) => ((k, v) :: p.1, p.2))
        | '\x7d' :: r4 => some ([(k, v)], r4)
        | _ => none) = _
  rw [h4]
  rfl

theorem printItems_head (ind : Nat) (x : JVal) (xs : List JVal) :
    ∃ c cs, printItems ind x xs = c :: cs ∧ jsonWs c = false ∧
      c ≠ ']' ∧ c ≠ '\x7d' := by
  obtain ⟨c, cs, hx, hws, hb, hbr⟩ := printVal_head ind x
  cases xs with
  | nil => exact ⟨c, cs, by rw [printItems, hx], hws, hb, hbr⟩
  | cons y ys =>
    refine ⟨c, cs ++ ',' :: (nlInd ind ++ printItems ind y ys), ?_, hws, hb, hbr⟩
    rw [printItems, hx, List.cons_append]

theorem printFields_head (ind : Nat) (k : List Char) (v : JVal)
    (fs : List (List Char × JVal)) :
    ∃ cs, printFields ind (k, v) fs = '"' :: cs := by
  cases fs with
  | nil => exact ⟨_, by rw [printFields, printStr_append]⟩
  | cons g gs => exact ⟨_, by rw [printFields, List.append_assoc, printStr_append]⟩

/-- The joint printer/parser round-trip, by induction on the parser fuel:
a printed value (item list, field list) surrounded by whitespace parses
back to itself, consuming exactly its own text. -/
theorem parse_print (fuel : Nat) :
    (∀ (v : JVal) (ind : Nat) (w rest : List Char),
        (∀ c ∈ w, jsonWs c = true) → jsize v ≤ fuel →
        parseVal fuel (w ++ (printVal ind v ++ rest)) = some (v, rest)) ∧
    (∀ (x : JVal) (xs : List JVal) (ind : Nat) (w z rest : List Char),
        (∀ c ∈ w, jsonWs c = true) → (∀ c ∈ z, jsonWs c = true) →
        jsizeItems x xs ≤ fuel →
        parseItems fuel (w ++ (printItems ind x xs ++ (z ++ ']' :: rest))) =
          some (x :: xs, rest)) ∧
    (∀ (k : List Char) (v : JVal) (fs : List (List Char × JVal)) (ind : Nat)
        (w z rest : List Char),
        (∀ c ∈ w, jsonWs c = true) → (∀ c ∈ z, jsonWs c = true) →
        jsizeFields (k, v) fs ≤ fuel →
        parseFields fuel (w ++ (printFields ind (k, v) fs ++ (z ++ '\x7d' :: rest))) =
          some ((k, v) :: fs, rest)) := by
  induction fuel with
  | zero =>
    refine ⟨?_, ?_, ?_⟩
    · intro v _ _ _ _ hs
      have := jsize_pos v
      omega
    · intro x xs _ _ _ _ _ _ hs
      have := jsizeItems_pos x xs
      omega
    · intro k v fs _ _ _ _ _ _ hs
      have := jsizeFields_pos (k, v) fs
      omega
  | succ fuel ih =>
    obtain ⟨ihv, ihi, ihf⟩ := ih
    refine ⟨?_, ?_, ?_⟩
    · intro v ind w rest hw hs
      cases v with
      | jstr s =>
        have hx : printVal ind (JVal.jstr s) =
            '"' :: ((s.map esc).flatten ++ ['"']) := by
          rw [printVal, printStr_eq]
        have hsk : skipWs (w ++ (printVal ind (JVal.jstr s) ++ rest)) =
            '"' :: ((s.map esc).flatten ++ ('"' :: rest)) := by
          rw [skipWs_ws_append hw, hx, List.cons_append, List.append_assoc,
            List.singleton_append]
          exact skipWs_cons_neg (by decide) _
        rw [parseVal_str fuel hsk, parseStr_roundtrip]
        rfl
      | jbool b =>
        cases b
        · have hx : printVal ind (JVal.jbool false) =
              'f' :: ('a' :: ('l' :: ('s' :: ['e']))) := by
            rw [printVal]
            rfl
          have hsk : skipWs (w ++ (printVal ind (JVal.jbool false) ++ rest)) =
              'f' :: ('a' :: ('l' :: ('s' :: ('e' :: rest)))) := by
            rw [skipWs_ws_append hw, hx, List.cons_append,
              skipWs_cons_neg (by decide)]
            rfl
          rw [parseVal_false fuel hsk]
        · have hx : printVal ind (JVal.jbool true) =
              't' :: ('r' :: ('u' :: ['e'])) := by
            rw [printVal]
            rfl
          have hsk : skipWs (w ++ (printVal ind (JVal.jbool true) ++ rest)) =
              't' :: ('r' :: ('u' :: ('e' :: rest))) := by
            rw [skipWs_ws_append hw, hx, List.cons_append,
              skipWs_cons_neg (by decide)]
            rfl
          rw [parseVal_true fuel hsk]
      | jarr xs =>
        cases xs with
        | nil =>
          have hx : printVal ind (JVal.jarr []) = '[' :: [']'] := by
            rw [printVal]
          have hsk : skipWs (w ++ (printVal ind (JVal.jarr []) ++ rest)) =
              '[' :: (']' :: rest) := by
            rw [skipWs_ws_append hw, hx, List.cons_append,
              skipWs_cons_neg (by decide)]
            rfl
          have hsk2 : skipWs (']' :: rest) = ']' :: rest :=
            skipWs_cons_neg (by decide) _
          rw [parseVal_arr_nil fuel hsk hsk2]
        | cons x xs =>
          have hfuel : jsizeItems x xs ≤ fuel := by
            rw [jsize] at hs
            omega
          have hx : printVal ind (JVal.jarr (x :: xs)) =
              '[' :: (nlInd (ind + 1) ++ printItems (ind + 1) x xs ++
                nlInd ind ++ [']']) := by
            rw [printVal]
          have hshape :
              (nlInd (ind + 1) ++ printItems (ind + 1) x xs ++ nlInd ind ++ [']'])
                ++ rest =
              nlInd (ind + 1) ++ (printItems (ind + 1) x xs ++
                (nlInd ind ++ (']' :: rest))) := by
            simp [List.append_assoc]
          have hsk : skipWs (w ++ (printVal ind (JVal.jarr (x :: xs)) ++ rest)) =
              '[' :: (nlInd (ind + 1) ++ (printItems (ind + 1) x xs ++
                (nlInd ind ++ (']' :: rest)))) := by
            rw [skipWs_ws_append hw, hx, List.cons_append, hshape,
              skipWs_cons_neg (by decide)]
          obtain ⟨c, cs, hih, hcws, hcbr, _⟩ := printItems_head (ind + 1) x xs
          have hsk2 : skipWs (nlInd (ind + 1) ++ (printItems (ind + 1) x xs ++
              (nlInd ind ++ (']' :: rest)))) =
              c :: (cs ++ (nlInd ind ++ (']' :: rest))) := by
            rw [skipWs_ws_append (nlInd_ws _), hih, List.cons_append,
              skipWs_cons_neg hcws]
          rw [parseVal_arr_go fuel hsk hsk2 hcbr,
            ihi x xs (ind + 1) (nlInd (ind + 1)) (nlInd ind) rest
              (nlInd_ws _) (nlInd_ws _) hfuel]
          rfl
      | jobj fs =>
        cases fs with
        | nil =>
          have hx : printVal ind (JVal.jobj []) = '\x7b' :: ['\x7d'] := by
            rw [printVal]
          have hsk : skipWs (w ++ (printVal ind (JVal.jobj []) ++ rest)) =
              '\x7b' :: ('\x7d' :: rest) := by
            rw [skipWs_ws_append hw, hx, List.cons_append,
              skipWs_cons_neg (by decide)]
            rfl
          have hsk2 : skipWs ('\x7d' :: rest) = '\x7d' :: rest :=
            skipWs_cons_neg (by decide) _
          rw [parseVal_obj_nil fuel hsk hsk2]
        | cons f fs =>
          obtain ⟨k, v⟩ := f
          have hfuel : jsizeFields (k, v) fs ≤ fuel := by
            rw [jsize] at hs
            omega
          have hx : printVal ind (JVal.jobj ((k, v) :: fs)) =
              '\x7b' :: (nlInd (ind + 1) ++ printFields (ind + 1) (k, v) fs ++
                nlInd ind ++ ['\x7d']) := by
            rw [printVal]
          have hshape :
              (nlInd (ind + 1) ++ printFields (ind + 1) (k, v) fs ++
                nlInd ind ++ ['\x7d']) ++ rest =
              nlInd (ind + 1) ++ (printFields (ind + 1) (k, v) fs ++
                (nlInd ind ++ ('\x7d' :: rest))) := by
            simp [List.append_assoc]
          have hsk : skipWs (w ++ (printVal ind (JVal.jobj ((k, v) :: fs)) ++ rest)) =
              '\x7b' :: (nlInd (ind + 1) ++ (printFields (ind + 1) (k, v) fs ++
                (nlInd ind ++ ('\x7d' :: rest)))) := by
            rw [skipWs_ws_append hw, hx, List.cons_append, hshape,
              skipWs_cons_neg (by decide)]
          obtain ⟨cs, hfh⟩ := printFields_head (ind + 1) k v fs
          have hsk2 : skipWs (nlInd (ind + 1) ++ (printFields (ind + 1) (k, v) fs ++
              (nlInd ind ++ ('\x7d' :: rest)))) =
              '"' :: (cs ++ (nlInd ind ++ ('\x7d' :: rest))) := by
            rw [skipWs_ws_append (nlInd_ws _), hfh, List.cons_append,
              skipWs_cons_neg (by decide)]
          rw [parseVal_obj_go fuel hsk hsk2 (by decide),
            ihf k v fs (ind + 1) (nlInd (ind + 1)) (nlInd ind) rest
              (nlInd_ws _) (nlInd_ws _) hfuel]
          rfl
    · intro x xs ind w z rest hw hz hs
      cases xs with
      | nil =>
        have hfx : jsize x ≤ fuel := by
          rw [jsizeItems] at hs
          omega
        have hpi : printItems ind x [] = printVal ind x := by rw [printItems]
        rw [hpi]
        have hpv := ihv x ind w (z ++ ']' :: rest) hw hfx
        have hsk : skipWs (z ++ ']' :: rest) = ']' :: rest := by
          rw [skipWs_ws_append hz, skipWs_cons_neg (by decide)]
        rw [parseItems_close fuel hpv hsk]
      | cons y ys =>
        have h1 : jsize x ≤ fuel := by
          rw [jsizeItems] at hs
          have := jsizeItems_pos y ys
          omega
        have h2 : jsizeItems y ys ≤ fuel := by
          rw [jsizeItems] at hs
          have := jsize_pos x
          omega
        have hshape : printItems ind x (y :: ys) ++ (z ++ ']' :: rest) =
            printVal ind x ++ (',' :: (nlInd ind ++
              (printItems ind y ys ++ (z ++ ']' :: rest)))) := by
          rw [printItems]
          simp [List.append_assoc]
        rw [hshape]
        have hpv := ihv x ind w
          (',' :: (nlInd ind ++ (printItems ind y ys ++ (z ++ ']' :: rest)))) hw h1
        have hsk : skipWs (',' :: (nlInd ind ++
            (printItems ind y ys ++ (z ++ ']' :: rest)))) =
            ',' :: (nlInd ind ++ (printItems ind y ys ++ (z ++ ']' :: rest))) :=
          skipWs_cons_neg (by decide) _
        rw [parseItems_comma fuel hpv hsk,
          ihi y ys ind (nlInd ind) z rest (nlInd_ws _) hz h2]
        rfl
    · intro k v fs ind w z rest hw hz hs
      cases fs with
      | nil =>
        have hfv : jsize v ≤ fuel := by
          rw [jsizeFields] at hs
          omega
        have hshape : printFields ind (k, v) [] ++ (z ++ '\x7d' :: rest) =
            printStr k ++ (':' :: (' ' :: (printVal ind v ++
              (z ++ '\x7d' :: rest)))) := by
          rw [printFields]
          simp [List.append_assoc]
        rw [hshape]
        have hsk : skipWs (w ++ (printStr k ++ (':' :: (' ' :: (printVal ind v ++
            (z ++ '\x7d' :: rest)))))) =
            '"' :: ((k.map esc).flatten ++ ('"' :: (':' :: (' ' ::
              (printVal ind v ++ (z ++ '\x7d' :: rest)))))) := by
          rw [skipWs_ws_append hw, printStr_append, skipWs_cons_neg (by decide)]
        have hstr := parseStr_roundtrip k
          (':' :: (' ' :: (printVal ind v ++ (z ++ '\x7d' :: rest))))
        have hc : skipWs (':' :: (' ' :: (printVal ind v ++
            (z ++ '\x7d' :: rest)))) =
            ':' :: (' ' :: (printVal ind v ++ (z ++ '\x7d' :: rest))) :=
          skipWs_cons_neg (by decide) _
        have hpv : parseVal fuel (' ' :: (printVal ind v ++
            (z ++ '\x7d' :: rest))) = some (v, z ++ '\x7d' :: rest) := by
          have := ihv v ind [' '] (z ++ '\x7d' :: rest) (by decide) hfv
          simpa using this
        have hend : skipWs (z ++ '\x7d' :: rest) = '\x7d' :: rest := by
          rw [skipWs_ws_append hz, skipWs_cons_neg (by decide)]
        rw [parseFields_close fuel hsk hstr hc hpv hend]
      | cons g gs =>
        obtain ⟨gk, gv⟩ := g
        have h1 : jsize v ≤ fuel := by
          rw [jsizeFields] at hs
          have := jsizeFields_pos (gk, gv) gs
          omega
        have h2 : jsizeFields (gk, gv) gs ≤ fuel := by
          rw [jsizeFields] at hs
          have := jsize_pos v
          omega
        have hshape : printFields ind (k, v) ((gk, gv) :: gs) ++
            (z ++ '\x7d' :: rest) =
            printStr k ++ (':' :: (' ' :: (printVal ind v ++ (',' :: (nlInd ind ++
              (printFields ind (gk, gv) gs ++ (z ++ '\x7d' :: rest))))))) := by
          rw [printFields]
          simp [List.append_assoc]
        rw [hshape]
        have hsk : skipWs (w ++ (printStr k ++ (':' :: (' ' :: (printVal ind v ++
            (',' :: (nlInd ind ++ (printFields ind (gk, gv) gs ++
              (z ++ '\x7d' :: rest))))))))) =
            '"' :: ((k.map esc).flatten ++ ('"' :: (':' :: (' ' ::
              (printVal ind v ++ (',' :: (nlInd ind ++
                (printFields ind (gk, gv) gs ++ (z ++ '\x7d' :: rest))))))))) := by
          rw [skipWs_ws_append hw, printStr_append, skipWs_cons_neg (by decide)]
        have hstr := parseStr_roundtrip k
          (':' :: (' ' :: (printVal ind v ++ (',' :: (nlInd ind ++
            (printFields ind (gk, gv) gs ++ (z ++ '\x7d' :: rest)))))))
        have hc : skipWs (':' :: (' ' :: (printVal ind v ++ (',' :: (nlInd ind ++
            (printFields ind (gk, gv) gs ++ (z ++ '\x7d' :: rest))))))) =
            ':' :: (' ' :: (printVal ind v ++ (',' :: (nlInd ind ++
              (printFields ind (gk, gv) gs ++ (z ++ '\x7d' :: rest)))))) :=
          skipWs_cons_neg (by decide) _
        have hpv : parseVal fuel (' ' :: (printVal ind v ++ (',' :: (nlInd ind ++
            (printFields ind (gk, gv) gs ++ (z ++ '\x7d' :: rest)))))) =
            some (v, ',' :: (nlInd ind ++ (printFields ind (gk, gv) gs ++
              (z ++ '\x7d' :: rest)))) := by
          have := ihv v ind [' '] (',' :: (nlInd ind ++
            (printFields ind (gk, gv) gs ++ (z ++ '\x7d' :: rest)))) (by decide) h1
          simpa using this
        have hcomma : skipWs (',' :: (nlInd ind ++ (printFields ind (gk, gv) gs ++
            (z ++ '\x7d' :: rest)))) =
            ',' :: (nlInd ind ++ (printFields ind (gk, gv) gs ++
              (z ++ '\x7d' :: rest))) :=
          skipWs_cons_neg (by decide) _
        rw [parseFields_comma fuel hsk hstr hc hpv hcomma,
          ihf gk gv gs ind (nlInd ind) z rest (nlInd_ws _) hz h2]
        rfl

/-- The parser fuel a value needs is below its printed length, so
`jparse`'s length-derived fuel always suffices. -/
theorem jsize_le_print :
    (∀ (ind : Nat) (v : JVal), jsize v + 1 ≤ (printVal ind v).length) ∧
    (∀ (ind : Nat) (f : List Char × JVal) (fs : List (List Char × JVal)),
        jsizeFields f fs ≤ (printFields ind f fs).length) ∧
    (∀ (ind : Nat) (x : JVal) (xs : List JVal),
        jsizeItems x xs ≤ (printItems ind x xs).length) := by
  refine printVal.mutual_induct
    (fun ind v => jsize v + 1 ≤ (printVal ind v).length)
    (fun ind f fs => jsizeFields f fs ≤ (printFields ind f fs).length)
    (fun ind x xs => jsizeItems x xs ≤ (printItems ind x xs).length)
    ?_ ?_ ?_ ?_ ?_ ?_ ?_ ?_ ?_ ?_ ?_
  · intro ind s
    rw [jsize, printVal, printStr_eq]
    simp
  · intro ind
    rw [jsize, printVal]
    decide
  · intro ind b hb
    rw [Bool.eq_false_iff.mpr hb] at *
    rw [jsize, printVal]
    decide
  · intro ind
    rw [jsize, printVal]
    decide
  · intro ind x xs ih
    rw [jsize, printVal]
    simp only [List.length_cons, List.length_append, nlInd, List.length_replicate]
    simp at *
    omega
  · intro ind
    rw [jsize, printVal]
    decide
  · intro ind f fs ih
    rw [jsize, printVal]
    simp only [List.length_cons, List.length_append, nlInd, List.length_replicate]
    simp at *
    omega
  · intro ind k v ih
    rw [jsizeFields, printFields, printStr_eq]
    simp at *
    omega
  · intro ind k v g gs ih1 ih2
    rw [jsizeFields, printFields, printStr_eq]
    simp at *
    omega
  · intro ind x ih
    rw [jsizeItems, printItems]
    omega
  · intro ind x y ys ih1 ih2
    rw [jsizeItems, printItems]
    simp at *
    omega

/-- The round-trip at the top level: a serialized document parses back to
the identical value. -/
theorem jparse_jprint (v : JVal) : jparse (jprint v) = some v := by
  have hb := jsize_le_print.1 0 v
  have h := (parse_print ((jprint v).length + 1)).1 v 0 [] []
    (fun c hc => absurd hc (List.not_mem_nil c)) (by rw [jprint]; omega)
  have hshape : ([] : List Char) ++ (printVal 0 v ++ []) = jprint v := by
    simp [jprint]
  rw [hshape] at h
  rw [jparse, h]
  rfl

/-- The dict built for one segment by `auto_ingest_text_file`
(src/text_processor.py lines 155-162): the `text` key, plus a
`voice_style` key exactly when the cycled style is stored explicitly. -/
def encodeAutoSegment (s : AutoSegment) : JVal :=
  JVal.jobj ([("text".data, JVal.jstr s.text)] ++
    (match s.voice_style with
     | some v => [("voice_style".data, JVal.jstr v.data)]
     | none => []))

/-- The `story_data` dict built by `auto_ingest_text_file`
(src/text_processor.py lines 164-175), in insertion order: title,
description (defaulting to an auto-generated one naming the source file),
settings (with the audio prompt appended when truthy), `create_full_audio`
set to true, and the segment objects.  This is the value `json.dump`
serializes when an output path is given. -/
def auto_ingest_story_json (textContent sourceName title : List Char)
    (description : Option (List Char)) (target : Nat) (pattern : List String)
    (global_audio_prompt : Option (List Char)) : JVal :=
  JVal.jobj
    [("title".data, JVal.jstr title),
     ("description".data,
       JVal.jstr (description.getD ("Auto-generated from ".data ++ sourceName))),
     ("settings".data, JVal.jobj
        ([("voice_style".data, JVal.jstr ("neutral".data))] ++
          (match global_audio_prompt with
           | some p => if p ≠ [] then [("audio_prompt".data, JVal.jstr p)] else []
           | none => []))),
     ("create_full_audio".data, JVal.jbool true),
     ("segments".data, JVal.jarr
        ((buildAutoSegments pattern
            (intelligent_text_splitting textContent target)).map encodeAutoSegment))]

/-- C7: serializing the story document produced by auto-ingestion with
`json.dump(..., indent=4, ensure_ascii=False)` and reloading it with
`json.load` yields a structure equal field-for-field to the in-memory
document, for every input text, title, description, target length, voice
pattern and audio prompt. -/
theorem auto_ingest_json_roundtrip (textContent sourceName title : List Char)
    (description : Option (List Char)) (target : Nat) (pattern : List String)
    (global_audio_prompt : Option (List Char)) :
    jparse (jprint (auto_ingest_story_json textContent sourceName title
        description target pattern global_audio_prompt)) =
      some (auto_ingest_story_json textContent sourceName title
        description target pattern global_audio_prompt) :=
  jparse_jprint _

end VoiceOvers
